import Mathlib

/-!
A verification development for the constantipy analysis & refactoring engine.
Source files embedded here: `src/constantipy/heuristics.py`,
`src/constantipy/analysis.py`, `src/constantipy/refactor.py`,
`src/constantipy/loader.py`.

Python strings are modelled as `List Char` (`Chars`); Python `None`-able
fields as `Option`; Python exceptions (`KeyError`, `IndexError`) as `Except`.
-/

set_option maxRecDepth 10000

namespace Constantipy

/-- Python strings modelled as lists of characters. -/
abbrev Chars := List Char

/-- The regex character class `[a-zA-Z0-9]` used in heuristics.py. -/
def isAsciiAlnum (c : Char) : Bool :=
  (('a' ≤ c && c ≤ 'z') || ('A' ≤ c && c ≤ 'Z') || ('0' ≤ c && c ≤ '9'))

/-- ASCII upper-casing of a single char, as Python `str.upper()` acts on
the `[a-zA-Z0-9_]` alphabet produced by the cleanup pipeline. -/
def upChar (c : Char) : Char :=
  if 'a' ≤ c && c ≤ 'z' then Char.ofNat (c.toNat - 32) else c

/-- Decimal digits of a natural number (fuel-driven so the kernel can
reduce it; the wrapper supplies fuel `n + 1`, always sufficient since
`n / 10 < n` when `10 ≤ n`). -/
def natDigitsAux (fuel n : Nat) : Chars :=
  match fuel with
  | 0 => []
  | fuel + 1 =>
    if n < 10 then [Char.ofNat (48 + n)]
    else natDigitsAux fuel (n / 10) ++ [Char.ofNat (48 + n % 10)]

/-- Decimal digits of a natural number, as Python `str(n)` / f-string
interpolation renders a non-negative integer. -/
def natDigits (n : Nat) : Chars := natDigitsAux (n + 1) n

/-- Python `str(v)` for an integer value. -/
def intStr (v : Int) : Chars :=
  if v < 0 then '-' :: natDigits v.natAbs else natDigits v.natAbs

/-! ## heuristics.py -/

/-- First substitution of `split_camel_case`:
`re.sub("(.)([A-Z][a-z]+)", r"\1_\2", text)`.  A fuel argument drives the
recursion; each step consumes at least one character, so fuel equal to the
length of the input (supplied by the wrapper) reproduces `re.sub` exactly. -/
def camelSub1 (fuel : Nat) (l : Chars) : Chars :=
  match fuel, l with
  | 0, l => l
  | _, [] => []
  | fuel + 1, c :: rest =>
    match rest with
    | u :: t =>
      if u.isUpper && (t.headD ' ').isLower then
        let lows := t.takeWhile Char.isLower
        let t' := t.dropWhile Char.isLower
        c :: '_' :: u :: (lows ++ camelSub1 fuel t')
      else
        c :: camelSub1 fuel rest
    | [] => [c]

/-- Second substitution of `split_camel_case`:
`re.sub("([a-z0-9])([A-Z])", r"\1_\2", s1)`. -/
def camelSub2 (fuel : Nat) (l : Chars) : Chars :=
  match fuel, l with
  | 0, l => l
  | _, [] => []
  | fuel + 1, c :: rest =>
    match rest with
    | u :: t =>
      if (c.isLower || c.isDigit) && u.isUpper then
        c :: '_' :: u :: camelSub2 fuel t
      else
        c :: camelSub2 fuel rest
    | [] => [c]

/-- `split_camel_case` from heuristics.py. -/
def split_camel_case (l : Chars) : Chars :=
  camelSub2 (camelSub1 l.length l).length (camelSub1 l.length l)

/-- `re.sub(r"[^a-zA-Z0-9]+", "_", s)` composed with `re.sub(r"_+", "_", s)`:
every maximal run of non-alphanumeric characters becomes one underscore.
(The first substitution already maps underscores, so the second is the
run-collapsing step.) -/
def mapNonAlnum (l : Chars) : Chars :=
  l.map (fun c => if isAsciiAlnum c then c else '_')

/-- Collapse runs of consecutive underscores to a single underscore. -/
def collapseUnderscores (l : Chars) : Chars :=
  match l with
  | [] => []
  | c :: rest =>
    match collapseUnderscores rest with
    | [] => [c]
    | d :: rest' => if c = '_' && d = '_' then d :: rest' else c :: d :: rest'

/-- Python `s.strip("_")`. -/
def stripUnderscores (l : Chars) : Chars :=
  ((l.dropWhile (· = '_')).reverse.dropWhile (· = '_')).reverse

/-- The full cleanup pipeline of `_name_from_str` after `split_camel_case`:
`clean = re.sub(r"[^a-zA-Z0-9]+", "_", processed)`;
`clean = re.sub(r"_+", "_", clean).strip("_").upper()`. -/
def cleanup (l : Chars) : Chars :=
  (stripUnderscores (collapseUnderscores (mapNonAlnum l))).map upChar

/-- Append a type-hint suffix unless already present, as in `_name_from_str`. -/
def hintSuffix (hint : Option String) (clean : Chars) : Chars :=
  match hint with
  | some "regex" => if "_RE".toList.isSuffixOf clean then clean else clean ++ "_RE".toList
  | some "sql" => if "_SQL".toList.isSuffixOf clean then clean else clean ++ "_SQL".toList
  | some "url" => if "_URL".toList.isSuffixOf clean then clean else clean ++ "_URL".toList
  | some "path" => if "_PATH".toList.isSuffixOf clean then clean else clean ++ "_PATH".toList
  | _ => clean

/-- The digit-start guard of `_name_from_str`:
`if not clean or clean[0].isdigit(): clean = f"STR_{clean}"`. -/
def clean1Step (clean0 : Chars) : Chars :=
  match clean0 with
  | [] => "STR_".toList
  | c :: _ => if c.isDigit then "STR_".toList ++ clean0 else clean0

/-- The tail of `_name_from_str` after the cleanup pipeline: digit-start
guard, type-hint suffix, truncation to 46 + `_ETC` when over 50, and the
index-suffixed fallback for names shorter than 3. -/
def name_from_str_post (clean0 : Chars) (idx : Nat) (hint : Option String) :
    Chars :=
  let clean1 := clean1Step clean0
  let clean2 := hintSuffix hint clean1
  let clean3 :=
    if clean2.length > 50 then clean2.take 46 ++ "_ETC".toList else clean2
  if clean3.length < 3 then "STR_CONST_".toList ++ natDigits idx else clean3

/-- `_name_from_str` from heuristics.py. -/
def name_from_str (val : Chars) (idx : Nat) (hint : Option String) : Chars :=
  if val = [] then "STR_EMPTY".toList
  else name_from_str_post (cleanup (split_camel_case val)) idx hint

/-- `_name_from_int` from heuristics.py: `str(val).replace("-", "NEG_")`
prefixed by `INT_`. -/
def name_from_int (val : Int) : Chars :=
  "INT_".toList ++ (intStr val).flatMap (fun c => if c = '-' then "NEG_".toList else [c])

/-- Python `s.replace(c, r)` for a single-character pattern. -/
def pyReplaceChar (l : Chars) (c : Char) (r : Chars) : Chars :=
  l.flatMap (fun x => if x = c then r else [x])

/-- The chained replaces of `_name_from_float`:
`str(val).replace(".", "_").replace("-", "NEG_").replace("+", "_")`. -/
def floatReplaced (s : Chars) : Chars :=
  pyReplaceChar (pyReplaceChar (pyReplaceChar s '.' ['_']) '-' "NEG_".toList)
    '+' ['_']

/-- `_name_from_float` from heuristics.py.  A float value enters the
heuristic only through its Python `str()` rendering, so the embedding
carries that rendering (`s`). -/
def name_from_float (s : Chars) : Chars :=
  "FLOAT_".toList ++ floatReplaced s

/-- Python `str.isprintable` on an ASCII-decoded character: the printable
ASCII range 0x20..0x7E. -/
def isPrintableAscii (c : Char) : Bool :=
  32 ≤ c.toNat && c.toNat ≤ 126

/-- `_name_from_bytes` from heuristics.py.  `val.decode("ascii")` succeeds
exactly when every byte is below 128; the printable branch cleans the
decoded text with the same sub/strip/upper pipeline as `_name_from_str`
(without camel-case splitting) and slices the result to 50 characters with
no truncation marker.  The `hashlib.md5(...).hexdigest()[:8].upper()`
fallback is an external-library call (like `ast.parse` elsewhere in this
development) modelled by the `digest8` parameter; theorems about the
fallback only assume its output is hexadecimal. -/
def name_from_bytes (digest8 : List Nat → Chars) (data : List Nat) : Chars :=
  if data.all (fun n => n < 128) &&
      (data.map (fun n => Char.ofNat n)).all isPrintableAscii then
    let clean := cleanup (data.map (fun n => Char.ofNat n))
    if clean = [] then "BYTES_".toList ++ digest8 data
    else ("BYTES_".toList ++ clean).take 50
  else "BYTES_".toList ++ digest8 data

/-- Constant values handled by the session, keyed by runtime type and value
(the Value Identity Key: the constructor is the type tag).  A float is
identified by its Python `str()` rendering — injective on the floats the
scanner produces, and the only view of the value the code ever takes — and
a byte-sequence by its list of byte values. -/
inductive Value where
  | str (s : Chars)
  | int (n : Int)
  | float (repr9 : Chars)
  | bytes (data : List Nat)
  deriving DecidableEq, Repr

/-- Stand-in for `hashlib.md5(val).hexdigest()[:8].upper()`, an external
library collaborator: a fixed digest function satisfying the hexadecimal
output assumption under which the heuristic theorems are stated. -/
def hashDigest8 : List Nat → Chars := fun _ => "0123ABCD".toList

/-- `generate_name` from heuristics.py.  The `digest8` parameter stands for
the external hash library used by the bytes fallback; every value type the
source supports (str, int, float, bytes) is covered, so the final
`TypeError` branch is unreachable. -/
def generate_name (digest8 : List Nat → Chars) (val : Value)
    (strategy : String) (idx : Nat) (hint : Option String) : Chars :=
  if strategy = "generic" then "CONST_".toList ++ natDigits idx
  else
    match val with
    | .str s => name_from_str s idx hint
    | .int n => name_from_int n
    | .float s => name_from_float s
    | .bytes b => name_from_bytes digest8 b

/-- Python whitespace for `str.strip()`. -/
def isPySpace (c : Char) : Bool :=
  c = ' ' || c = '\t' || c = '\n' || c = '\r' || c = '\x0b' || c = '\x0c'

/-- Python `s.strip()`. -/
def pyStrip (l : Chars) : Chars :=
  ((l.dropWhile isPySpace).reverse.dropWhile isPySpace).reverse

/-- Python `s.startswith((p1, p2, ...))`. -/
def startsWithAny (l : Chars) (ps : List String) : Bool :=
  ps.any (fun p => p.toList.isPrefixOf l)

/-- `determine_type_hint` from heuristics.py (ASCII upper-casing model). -/
def determine_type_hint (val : Value) (is_regex_arg : Bool) : Option String :=
  match val with
  | .int _ => none
  | .float _ => none
  | .bytes _ => none
  | .str s =>
    if is_regex_arg then some "regex"
    else if startsWithAny ((pyStrip s).map upChar)
        ["SELECT ", "INSERT ", "UPDATE ", "DELETE ", "CREATE "] then some "sql"
    else if startsWithAny (pyStrip s) ["http://", "https://"] then some "url"
    else if startsWithAny (pyStrip s) ["/", "./", "../"] then some "path"
    else none

/-! ## Python dict / Counter model

Python `dict` assignment replaces the value of an existing key in place
(keeping its position) and appends a fresh key at the end. -/

/-- `d[k] = v` on a Python dict modelled as an association list. -/
def dictSet {α β : Type} [BEq α] (d : List (α × β)) (k : α) (v : β) :
    List (α × β) :=
  if d.any (fun p => p.1 == k) then
    d.map (fun p => if p.1 == k then (k, v) else p)
  else d ++ [(k, v)]

/-- `d.get(k)` on a Python dict. -/
def dictFind? {α β : Type} [BEq α] (d : List (α × β)) (k : α) : Option β :=
  (d.find? (fun p => p.1 == k)).map (fun p => p.2)

/-- `Counter[k]` lookup: missing keys count as zero. -/
def counterGet (tr : List (Chars × Nat)) (k : Chars) : Nat :=
  (dictFind? tr k).getD 0

/-- `Counter[k] += 1`. -/
def counterBump (tr : List (Chars × Nat)) (k : Chars) : List (Chars × Nat) :=
  dictSet tr k (counterGet tr k + 1)

/-! ## analysis.py -/

/-- A Literal Occurrence as consumed by the session (the fields
`RefactoringSession` reads from the scanner dictionaries). -/
structure Occ where
  filepath : String
  definition_of : Option Chars
  is_regex_arg : Bool
  deriving DecidableEq, Repr

/-- The configuration fields `RefactoringSession` consults. -/
structure AnalysisConfig where
  use_local_scope : Bool
  naming_strategy : String
  min_count : Nat
  constants_path : String
  deriving DecidableEq, Repr

/-- An Existing Constant Entry from the loader index. -/
structure ExistingEntry where
  name : Chars
  source : Option String
  scope : String
  deriving DecidableEq, Repr

/-- A Report Entry as built by `_process_item`. -/
structure ReportEntry where
  value : Value
  occurrences : List Occ
  is_new : Bool
  source_path : Option String
  scope : String
  deriving DecidableEq, Repr

/-- The mutable state of `RefactoringSession`. -/
structure Session where
  config : AnalysisConfig
  existing_map : List (Value × ExistingEntry)
  global_reserved : List Chars
  file_scope_names : List (String × List Chars)
  name_tracker : List (Chars × Nat)
  report : List (Chars × ReportEntry)
  idx : Nat
  deriving DecidableEq, Repr

/-- The `while name in reserved_names` loop of `_resolve_collision`.
Each iteration bumps the base-name counter, so the candidate names
`base_(k+1)` are pairwise distinct; fuel `reserved.length + 1` (supplied by
the wrapper) therefore always suffices for the loop to exit exactly as in
the source. -/
def resolveLoop (base : Chars) :
    Nat → List (Chars × Nat) → Chars → List Chars → Chars × List (Chars × Nat)
  | 0, tr, name, _ => (name, tr)
  | fuel + 1, tr, name, reserved =>
    if name ∈ reserved then
      let tr' := counterBump tr base
      resolveLoop base fuel tr'
        (base ++ '_' :: natDigits (counterGet tr' base + 1)) reserved
    else (name, tr)

/-- `RefactoringSession._resolve_collision`; returns the chosen name and the
updated `name_tracker`. -/
def resolve_collision (tr : List (Chars × Nat)) (base : Chars)
    (reserved : List Chars) : Chars × List (Chars × Nat) :=
  let count := counterGet tr base
  let name := if count > 0 then base ++ '_' :: natDigits (count + 1) else base
  resolveLoop base (reserved.length + 1) tr name reserved

/-- Result tuple of `_create_new_constant`. -/
structure CreateResult where
  final_name : Chars
  scope : String
  source_path : String
  is_new : Bool
  deriving DecidableEq, Repr

/-- `RefactoringSession._create_new_constant`.  (`list(unique_files)[0]` in
the local branch is modelled with `headD`; the session only reaches the
local branch with a non-empty occurrence list, where the two agree.) -/
def create_new_constant (sess : Session) (val : Value)
    (occurrences : List Occ) : CreateResult × Session :=
  let unique_files := (occurrences.map Occ.filepath).dedup
  let is_regex := occurrences.any Occ.is_regex_arg
  let type_hint := determine_type_hint val is_regex
  let base_name :=
    generate_name hashDigest8 val sess.config.naming_strategy sess.idx type_hint
  let existing_defs := (occurrences.filterMap Occ.definition_of).dedup
  let force_global := ¬ sess.config.use_local_scope
  if force_global ∨ unique_files.length > 1 then
    let reserved :=
      if base_name ∈ existing_defs then
        sess.global_reserved.filter (fun n => ¬ (n == base_name))
      else sess.global_reserved
    let (final_name, tr') := resolve_collision sess.name_tracker base_name reserved
    let r : CreateResult :=
      { final_name := final_name, scope := "global",
        source_path := sess.config.constants_path, is_new := true }
    (r, { sess with name_tracker := counterBump tr' final_name, idx := sess.idx + 1 })
  else
    let source_path := unique_files.headD ""
    let reserved0 := (dictFind? sess.file_scope_names source_path).getD []
    let reserved :=
      if base_name ∈ existing_defs then
        reserved0.filter (fun n => ¬ (n == base_name))
      else reserved0
    let (final_name, tr') := resolve_collision sess.name_tracker base_name reserved
    let is_new := ¬ (final_name ∈ existing_defs)
    let r : CreateResult :=
      { final_name := final_name, scope := "local",
        source_path := source_path, is_new := is_new }
    (r, { sess with name_tracker := counterBump tr' final_name,
                    idx := if is_new then sess.idx + 1 else sess.idx })

/-- `RefactoringSession._process_item`; returns the updated session and the
name/entry pair written into the report dict. -/
def process_item (sess : Session) (val : Value) (occurrences : List Occ) :
    Session × (Chars × ReportEntry) :=
  match dictFind? sess.existing_map val with
  | some entry =>
    let e : ReportEntry :=
      { value := val, occurrences := occurrences, is_new := false,
        source_path := entry.source, scope := entry.scope }
    ({ sess with report := dictSet sess.report entry.name e }, (entry.name, e))
  | none =>
    let (r, sess') := create_new_constant sess val occurrences
    let e : ReportEntry :=
      { value := val, occurrences := occurrences, is_new := r.is_new,
        source_path := some r.source_path, scope := r.scope }
    ({ sess' with report := dictSet sess'.report r.final_name e },
     (r.final_name, e))

/-- Stable insertion (descending by occurrence count) for
`sorted(..., key=lambda x: len(x[1]), reverse=True)`. -/
def insertDesc (x : Value × List Occ) :
    List (Value × List Occ) → List (Value × List Occ)
  | [] => [x]
  | y :: ys =>
    if x.2.length ≥ y.2.length then x :: y :: ys else y :: insertDesc x ys

/-- Stable descending sort by occurrence count. -/
def sortGroupsDesc : List (Value × List Occ) → List (Value × List Occ)
  | [] => []
  | x :: xs => insertDesc x (sortGroupsDesc xs)

/-- One iteration of the loop in `RefactoringSession.analyze`: discard the
group if its occurrence count is below the configured minimum, otherwise
process it. -/
def analyzeStep (s : Session) (g : Value × List Occ) : Session :=
  if g.2.length < s.config.min_count then s else (process_item s g.1 g.2).1

/-- The group-processing loop of `RefactoringSession.analyze`, applied to
the value-identity groups of `literal_map` (one group per distinct key, as
produced by a Python dict). -/
def analyze (sess : Session) (groups : List (Value × List Occ)) : Session :=
  (sortGroupsDesc groups).foldl analyzeStep sess

/-- The session state at the start of `analyze`'s group loop:
`__init__` leaves the tracker, report and index fresh, and
`_load_and_scan` fills the existing-constant index and the reserved-name
sets. -/
def initialSession (config : AnalysisConfig)
    (existing_map : List (Value × ExistingEntry))
    (global_reserved : List Chars)
    (file_scope_names : List (String × List Chars)) : Session :=
  { config := config, existing_map := existing_map,
    global_reserved := global_reserved, file_scope_names := file_scope_names,
    name_tracker := [], report := [], idx := 1 }

/-! ## refactor.py

Buffers are lists of lines (`splitlines(keepends=True)` output), each line a
`Chars`.  Python list indexing (negative indices, `IndexError`) and string
slicing (clamping) are modelled explicitly. -/

/-- Python list index resolution: negative indices count from the end,
out-of-range indices are `none` (`IndexError`). -/
def pyIdx (n : Nat) (i : Int) : Option Nat :=
  if i < 0 then
    if i + n < 0 then none else some (i + n).toNat
  else if i < n then some i.toNat else none

/-- Python `lines[i]` read. -/
def pyGetLine (lines : List Chars) (i : Int) : Except Unit Chars :=
  match pyIdx lines.length i with
  | some j => .ok (lines.getD j [])
  | none => .error ()

/-- Python `lines[i] = x` assignment. -/
def pySetLine (lines : List Chars) (i : Int) (x : Chars) :
    Except Unit (List Chars) :=
  match pyIdx lines.length i with
  | some j => .ok (lines.set j x)
  | none => .error ()

/-- Python `s[:i]` (clamping, negative counts from end). -/
def pySliceTo (l : Chars) (i : Int) : Chars :=
  l.take (if i < 0 then (i + l.length).toNat else i.toNat)

/-- Python `s[i:]`. -/
def pySliceFrom (l : Chars) (i : Int) : Chars :=
  l.drop (if i < 0 then (i + l.length).toNat else i.toNat)

/-- One replacement dictionary as built by `_parse_occurrences`. -/
structure Rep where
  name : Chars
  definition_of : Option Chars
  scope : String
  start_line : Int
  start_col : Int
  end_line : Int
  end_col : Int
  deriving DecidableEq, Repr

/-- The `for i in range(s_line + 1, e_line): lines[i] = ""` loop; the count
argument is the exact size of the Python `range`. -/
def clearLoop : Nat → List Chars → Nat → Except Unit (List Chars)
  | 0, lines, _ => .ok lines
  | k + 1, lines, j => do
    let lines' ← pySetLine lines j []
    clearLoop k lines' (j + 1)

/-- The body of the replacement loop in `_apply_replacements`, for one
replacement; returns the new buffer and whether this replacement modified
it. -/
def apply_one (lines : List Chars) (rep : Rep) : Except Unit (List Chars × Bool) :=
  if rep.definition_of == some rep.name then .ok (lines, false)
  else
    let s_line : Int := rep.start_line - 1
    let e_line : Int := rep.end_line - 1
    if s_line < 0 ∨ s_line ≥ (lines.length : Int) then .ok (lines, false)
    else
      let s := s_line.toNat
      if s_line = e_line then
        let line := lines.getD s []
        if rep.start_col < 0 ∨ rep.end_col > (line.length : Int) then
          .ok (lines, false)
        else
          let newLine :=
            pySliceTo line rep.start_col ++ rep.name ++ pySliceFrom line rep.end_col
          .ok (lines.set s newLine, true)
      else
        match pyGetLine lines s_line with
        | .error e => .error e
        | .ok first =>
          match pySetLine lines s_line
              (pySliceTo first rep.start_col ++ rep.name ++ ['\n']) with
          | .error e => .error e
          | .ok lines1 =>
            match clearLoop (e_line - (s_line + 1)).toNat lines1 (s + 1) with
            | .error e => .error e
            | .ok lines2 =>
              match pyGetLine lines2 e_line with
              | .error e => .error e
              | .ok last =>
                match pySetLine lines2 e_line (pySliceFrom last rep.end_col) with
                | .error e => .error e
                | .ok lines3 => .ok (lines3, true)

/-- The `for rep in replacements` loop of `_apply_replacements`,
accumulating the buffer and the `modified` flag. -/
def applyLoop : List Chars × Bool → List Rep → Except Unit (List Chars × Bool)
  | acc, [] => .ok acc
  | acc, rep :: reps =>
    match apply_one acc.1 rep with
    | .error e => .error e
    | .ok (l, m) => applyLoop (l, acc.2 || m) reps

/-- `_apply_replacements` from refactor.py, applied to an (already
reverse-sorted) replacement list. -/
def apply_replacements (lines : List Chars) (reps : List Rep) :
    Except Unit (List Chars × Bool) :=
  applyLoop (lines, false) reps

/-- Lexicographic comparison of Python strings (by code point), as used by
`sorted`. -/
def charsLt : Chars → Chars → Bool
  | [], [] => false
  | [], _ :: _ => true
  | _ :: _, [] => false
  | a :: as_, b :: bs => if a < b then true else if b < a then false else charsLt as_ bs

/-- Insert into an ascending sorted list (stable). -/
def insertAsc (x : Chars) : List Chars → List Chars
  | [] => [x]
  | y :: ys => if charsLt y x then y :: insertAsc x ys else x :: y :: ys

/-- Ascending sort, modelling Python `sorted` on a set of strings. -/
def sortChars : List Chars → List Chars
  | [] => []
  | x :: xs => insertAsc x (sortChars xs)

/-- The set `used_globals` of `_insert_global_imports`, then `sorted(...)`:
the distinct names of replacements whose scope is "global", in ascending
order. -/
def usedGlobalNames (reps : List Rep) : List Chars :=
  sortChars
    ((reps.filterMap (fun r => if r.scope == "global" then some r.name else none)).dedup)

/-- Python `", ".join(names)`. -/
def joinComma : List Chars → Chars
  | [] => []
  | [x] => x
  | x :: xs => x ++ ',' :: ' ' :: joinComma xs

/-- Python substring test `needle in haystack`. -/
def containsSub (needle : Chars) : Chars → Bool
  | [] => needle.isPrefixOf []
  | c :: rest => needle.isPrefixOf (c :: rest) || containsSub needle rest

/-- Python `list.insert(i, x)` (for the non-negative indices produced by
`find_insertion_line`). -/
def insertAt (lines : List Chars) (i : Nat) (x : Chars) : List Chars :=
  lines.take i ++ x :: lines.drop i

/-- The aggregated import line
`f"from {module_name} import {names_str}\n"`. -/
def importStmt (module_name : Chars) (names : List Chars) : Chars :=
  "from ".toList ++ module_name ++ " import ".toList ++ joinComma names ++ ['\n']

/-- `_insert_global_imports` from refactor.py.  `module_name` stands for
`config.target_file.rsplit(".", 1)[0]` and `insert_idx` for
`find_insertion_line(content)` (which parses the original file text, an
external-collaborator step).  Returns the new buffer, the modified flag and
the set of imported names. -/
def insert_global_imports (lines : List Chars) (reps : List Rep)
    (module_name : Chars) (insert_idx : Nat) :
    List Chars × Bool × List Chars :=
  let used := usedGlobalNames reps
  if used = [] then (lines, false, [])
  else
    let stmt := importStmt module_name used
    if lines.any (fun line => containsSub (pyStrip stmt) line) then
      (lines, false, used)
    else (insertAt lines insert_idx stmt, true, used)

/-! ## process_report validation (refactor.py)

Report entries as deserialized dictionaries: every field is optional, and a
`data["k"]` access on a missing key is a `KeyError` carrying the key name,
which `process_report` converts into a `ConstantipyError`. -/

/-- One occurrence dictionary with optional fields. -/
structure RawOcc where
  filepath : Option String
  lineno : Option Int
  col_offset : Option Int
  end_lineno : Option Int
  end_col_offset : Option Int
  definition_of : Option Chars
  deriving DecidableEq, Repr

/-- One report entry dictionary with optional fields. -/
structure RawEntry where
  value : Option Value
  is_new : Option Bool
  scope : Option String
  occurrences : Option (List RawOcc)
  source_path : Option String
  deriving DecidableEq, Repr

/-- The key accesses of `_handle_global_constants` for one entry:
`data["value"]` is read exactly when `data.get("is_new")` is truthy and
`data.get("scope")` equals "global" (a missing key is `KeyError("value")`). -/
def handleEntryPass (data : RawEntry) : Except String Unit :=
  if data.is_new.getD false && (data.scope == some "global") then
    match data.value with
    | some _ => .ok ()
    | none => .error "value"
  else .ok ()

/-- Sequencing of a per-element check over a Python `for` loop: stop at
the first raised `KeyError`. -/
def exceptForM {α : Type} (f : α → Except String Unit) : List α → Except String Unit
  | [] => .ok ()
  | x :: xs =>
    match f x with
    | .error e => .error e
    | .ok _ => exceptForM f xs

/-- The loop of `_handle_global_constants` over the report. -/
def handleGlobalsPass (report : List (String × RawEntry)) : Except String Unit :=
  exceptForM (fun p => handleEntryPass p.2) report

/-- The required span-field accesses of `_parse_occurrences` for one
occurrence dictionary (`definition_of` is read with `.get` and never
raises). -/
def parseOccPass (occ : RawOcc) : Except String Unit :=
  match occ.filepath with
  | none => .error "filepath"
  | some _ =>
    match occ.lineno with
    | none => .error "lineno"
    | some _ =>
      match occ.col_offset with
      | none => .error "col_offset"
      | some _ =>
        match occ.end_lineno with
        | none => .error "end_lineno"
        | some _ =>
          match occ.end_col_offset with
          | none => .error "end_col_offset"
          | some _ => .ok ()

/-- The key accesses of `_parse_occurrences` for one entry: `data["value"]`
when the entry is a new local (scope defaulted to "global" via `.get`),
then `data["occurrences"]` and each occurrence's span fields. -/
def parseEntryPass (data : RawEntry) : Except String Unit :=
  if data.is_new.getD false && (data.scope.getD "global" == "local")
      && data.value.isNone then .error "value"
  else
    match data.occurrences with
    | none => .error "occurrences"
    | some occs => exceptForM parseOccPass occs

/-- The loop of `_parse_occurrences` over the report. -/
def parseOccurrencesPass (report : List (String × RawEntry)) :
    Except String Unit :=
  exceptForM (fun p => parseEntryPass p.2) report

/-- The `try` block of `process_report`: `_handle_global_constants` runs
over the whole report first, then `_parse_occurrences`; a `KeyError` is
re-raised as `ConstantipyError("Malformed report: Missing key ...")`. -/
def process_report_check (report : List (String × RawEntry)) :
    Except String Unit :=
  match handleGlobalsPass report with
  | .error k => .error ("Malformed report: Missing key " ++ k)
  | .ok _ =>
    match parseOccurrencesPass report with
    | .error k => .error ("Malformed report: Missing key " ++ k)
    | .ok _ => .ok ()

/-! ## loader.py

A small Python statement tree, and the `ast.NodeVisitor` traversal of
`ConstantLoader`: `visit` dispatches `visit_Assign` on assignment nodes and
`generic_visit` recurses into every child node (so also into function and
class bodies). -/

/-- The right-hand side of an assignment, as the loader classifies it. -/
inductive PyExpr where
  | lit (v : Value)
  | otherConst
  | nonConst
  deriving DecidableEq, Repr

/-- An assignment target. -/
inductive PyTarget where
  | name (id : Chars)
  | nonName
  deriving DecidableEq, Repr

/-- Python statements relevant to the loader traversal. -/
inductive PyStmt where
  | assign (targets : List PyTarget) (value : PyExpr)
  | functionDef (body : List PyStmt)
  | classDef (body : List PyStmt)
  | other
  deriving Repr

/-- The mutable state of `ConstantLoader`. -/
structure LoaderState where
  value_to_details : List (Value × ExistingEntry)
  defined_names : List Chars
  deriving DecidableEq, Repr

/-- Python `set.add`. -/
def setAdd (s : List Chars) (x : Chars) : List Chars :=
  if x ∈ s then s else s ++ [x]

/-- The body of `ConstantLoader.visit_Assign` (without the `generic_visit`
recursion, which finds no further statements inside an assignment). -/
def visitAssign (current_file : String) (st : LoaderState)
    (targets : List PyTarget) (value : PyExpr) : LoaderState :=
  match targets with
  | [PyTarget.name const_name] =>
    let st' := { st with defined_names := setAdd st.defined_names const_name }
    let entry : ExistingEntry :=
      { name := const_name, source := some current_file, scope := "global" }
    match value with
    | .lit v =>
      { st' with value_to_details := dictSet st'.value_to_details v entry }
    | _ => st'
  | _ => st

/-- The `NodeVisitor` traversal of `ConstantLoader` (fuel-driven to stay
structural; fuel bounds the statement nesting depth, and the wrapper passes
more than any input considered here needs). -/
def visitStmtFuel (current_file : String) :
    Nat → LoaderState → PyStmt → LoaderState
  | 0, st, _ => st
  | fuel + 1, st, stmt =>
    match stmt with
    | .assign targets value => visitAssign current_file st targets value
    | .functionDef body => body.foldl (visitStmtFuel current_file fuel) st
    | .classDef body => body.foldl (visitStmtFuel current_file fuel) st
    | .other => st

/-- `loader.visit(ast.parse(...))` on a parsed module body. -/
def visitModule (current_file : String) (st : LoaderState)
    (body : List PyStmt) : LoaderState :=
  body.foldl (visitStmtFuel current_file 1000) st

/-! ## Toolkit lemmas -/

theorem applyLoop_cons (acc : List Chars × Bool) (r : Rep) (rs : List Rep) :
    applyLoop acc (r :: rs) =
      match apply_one acc.1 r with
      | .error e => .error e
      | .ok (l, m) => applyLoop (l, acc.2 || m) rs := rfl

theorem applyLoop_filter_self_defs (acc : List Chars × Bool) (reps : List Rep) :
    applyLoop acc reps =
      applyLoop acc (reps.filter (fun r => !(r.definition_of == some r.name))) := by
  induction reps generalizing acc with
  | nil => rfl
  | cons r rs ih =>
    rw [applyLoop_cons, List.filter_cons]
    by_cases h : (r.definition_of == some r.name) = true
    · have hskip : apply_one acc.1 r = .ok (acc.1, false) := by
        unfold apply_one
        simp [h]
      rw [hskip]
      simp only [h, Bool.not_true, Bool.false_eq_true, if_false]
      rw [Bool.or_false]
      exact ih acc
    · have h' : (!(r.definition_of == some r.name)) = true := by simp [h]
      rw [if_pos h', applyLoop_cons]
      cases happ : apply_one acc.1 r with
      | error e => rfl
      | ok p =>
        obtain ⟨l, m⟩ := p
        exact ih (l, acc.2 || m)

/-! ## Claim C1 -/

/-- The session state after `__init__` and `_load_and_scan` on an empty
codebase state, with minimum count 2 and local scope enabled. -/
def c1sess : Session :=
  { config := { use_local_scope := true, naming_strategy := "derived",
                min_count := 2, constants_path := "constants.py" },
    existing_map := [], global_reserved := [], file_scope_names := [],
    name_tracker := [], report := [], idx := 1 }

/-- An occurrence of a value in file `fp`, not itself a definition. -/
def c1occ (fp : String) : Occ :=
  { filepath := fp, definition_of := none, is_regex_arg := false }

def c1v1 : Value := Value.str "foo bar".toList
def c1v2 : Value := Value.str "foo_bar".toList
def c1v3 : Value := Value.str "foo.bar".toList

/-- Three distinct string values that share the heuristic base name
`FOO_BAR`, each occurring twice across two files (so each is kept by the
threshold and resolved in global scope). -/
def c1groups : List (Value × List Occ) :=
  [ (c1v1, [c1occ "a.py", c1occ "b.py"]),
    (c1v2, [c1occ "a.py", c1occ "b.py"]),
    (c1v3, [c1occ "a.py", c1occ "b.py"]) ]

def c1step1 : Session := (process_item c1sess c1v1 [c1occ "a.py", c1occ "b.py"]).1
def c1step2 : Session × (Chars × ReportEntry) :=
  process_item c1step1 c1v2 [c1occ "a.py", c1occ "b.py"]
def c1step3 : Session × (Chars × ReportEntry) :=
  process_item c1step2.1 c1v3 [c1occ "a.py", c1occ "b.py"]

/-- C1: final-name uniqueness fails on the code.  Running the session on
three distinct above-threshold value groups that share the heuristic base
name `FOO_BAR` assigns the *same* final name `FOO_BAR_2`, in the same
(global) scope, to the second and the third group, and the third group's
report assignment overwrites the second's (three groups, two report keys).
The last conjunct replays the repo's own unit test
`test_name_collision_resolution`, whose second assertion expects
`MY_CONST_4` where the code produces `MY_CONST_3` again. -/
theorem c1_duplicate_final_names :
    ((analyze c1sess c1groups).report.map Prod.fst) =
      ["FOO_BAR".toList, "FOO_BAR_2".toList] ∧
    c1groups.length = 3 ∧
    (c1groups.map Prod.fst).Nodup ∧
    (∀ g ∈ c1groups, c1sess.config.min_count ≤ g.2.length) ∧
    analyze c1sess c1groups = c1step3.1 ∧
    c1step2.2.1 = "FOO_BAR_2".toList ∧ c1step2.2.2.scope = "global" ∧
    c1step3.2.1 = "FOO_BAR_2".toList ∧ c1step3.2.2.scope = "global" ∧
    (resolve_collision
        (counterBump
          (resolve_collision [] "MY_CONST".toList
            ["MY_CONST".toList, "MY_CONST_1".toList, "MY_CONST_2".toList]).2
          "MY_CONST_3".toList)
        "MY_CONST".toList
        ["MY_CONST".toList, "MY_CONST_1".toList, "MY_CONST_2".toList]).1 =
      "MY_CONST_3".toList := by
  refine ⟨by decide, by decide, by decide, by decide, by decide, ?_, ?_, ?_, ?_, by decide⟩ <;> decide

/-! ## Claim C2 -/

/-- C2: a replacement whose target name equals the identifier the
occurrence itself defines is skipped: applying a replacement batch is the
same as applying the batch with every such self-definition replacement
removed, so no self-referential `NAME = NAME` splice is ever produced by
them. -/
theorem c2_self_definition_replacements_skipped (lines : List Chars)
    (reps : List Rep) :
    apply_replacements lines reps =
      apply_replacements lines
        (reps.filter (fun r => !(r.definition_of == some r.name))) :=
  applyLoop_filter_self_defs (lines, false) reps

/-! ## Claim C8 -/

/-- A loaded file whose only assignment is nested inside a function body:
`def f():  NESTED = 'abc'`. -/
def c8module : List PyStmt :=
  [PyStmt.functionDef
    [PyStmt.assign [PyTarget.name "NESTED".toList]
      (PyExpr.lit (Value.str "abc".toList))]]

/-- C8: the loader does record nested assignments.  `generic_visit`
recurses into function bodies, so loading a file whose only binding of a
literal to an identifier sits inside a function body still contributes an
entry to the existing-constant index (and the name to the reserved set),
although `visit_Assign`'s own docstring says it collects top-level constant
definitions. -/
theorem c8_nested_assignment_recorded :
    (visitModule "c.py" ⟨[], []⟩ c8module).value_to_details =
      [(Value.str "abc".toList,
        { name := "NESTED".toList, source := some "c.py", scope := "global" })] ∧
    (visitModule "c.py" ⟨[], []⟩ c8module).defined_names = ["NESTED".toList] := by
  decide

/-! ## Claim C10 -/

def c10buf : List Chars := ["a\n".toList, "b\n".toList]

/-- A multi-line replacement whose start line is inside the two-line buffer
but whose end line (5) is far past it. -/
def c10rep : Rep :=
  { name := "C".toList, definition_of := none, scope := "local",
    start_line := 1, start_col := 0, end_line := 5, end_col := 0 }

/-- C10 counterexample: a multi-line replacement with an in-range start
line and an out-of-range end line makes `_apply_replacements` raise an
uncaught `IndexError` (`lines[i] = ""` with `i` past the buffer), modelled
as `.error ()` — the engine is not total over out-of-range spans. -/
theorem c10_counterexample :
    apply_replacements c10buf [c10rep] = .error () := by rfl

/-- C10 (amended): a replacement whose start line is outside the buffer,
or whose single-line span has a negative start column or an end column past
the end of its line, is silently skipped and contributes nothing: applying
it together with any remaining batch equals applying the batch without it.
(Multi-line spans with an out-of-range end line are not guarded and raise,
see the counterexample.) -/
theorem c10_out_of_range_replacements_skipped (lines : List Chars) (r : Rep)
    (rs : List Rep)
    (h : (r.start_line - 1 < 0 ∨ r.start_line - 1 ≥ (lines.length : Int)) ∨
         (r.start_line = r.end_line ∧ 0 ≤ r.start_line - 1 ∧
          r.start_line - 1 < (lines.length : Int) ∧
          (r.start_col < 0 ∨
            r.end_col > ((lines.getD (r.start_line - 1).toNat []).length : Int)))) :
    apply_replacements lines (r :: rs) = apply_replacements lines rs := by
  have hskip : apply_one lines r = .ok (lines, false) := by
    unfold apply_one
    by_cases hd : (r.definition_of == some r.name) = true
    · simp [hd]
    · simp only [hd, Bool.false_eq_true, if_false]
      rcases h with h1 | ⟨heq, h2, h3, h4⟩
      · rw [if_pos h1]
      · have hnot : ¬ (r.start_line - 1 < 0 ∨ r.start_line - 1 ≥ (lines.length : Int)) := by
          push_neg
          exact ⟨h2, h3⟩
        rw [if_neg hnot, if_pos (by rw [heq]), if_pos h4]
  unfold apply_replacements
  rw [applyLoop_cons, hskip]
  rfl

/-- Witness for the amended C10 theorem: a replacement with start line 0
(outside the buffer) is skipped. -/
theorem c10_skip_witness :
    apply_replacements ["ab\n".toList]
        [{ name := "C".toList, definition_of := none, scope := "local",
           start_line := 0, start_col := 0, end_line := 0, end_col := 0 }] =
      apply_replacements ["ab\n".toList] [] :=
  c10_out_of_range_replacements_skipped ["ab\n".toList] _ []
    (Or.inl (Or.inl (by decide)))

/-! ## Claim C7 -/

/-- A report entry carrying value, scope, occurrences and source_path but
no `is_new` field. -/
def c7entry : RawEntry :=
  { value := some (Value.str "foo".toList), is_new := none,
    scope := some "local", occurrences := some [], source_path := some "a.py" }

/-- C7 counterexample: an entry lacking the required field `is_new` (all
other fields present) is processed without any error — the missing field is
silently defaulted to a falsy value instead of being fatal for the run. -/
theorem c7_counterexample :
    c7entry.is_new = none ∧ process_report_check [("N", c7entry)] = .ok () :=
  ⟨rfl, rfl⟩

/-- Completeness of one occurrence dictionary: the five span fields the
patch engine reads with `occ["..."]`. -/
def occComplete (o : RawOcc) : Bool :=
  o.filepath.isSome && o.lineno.isSome && o.col_offset.isSome &&
  o.end_lineno.isSome && o.end_col_offset.isSome

/-- Completeness of one report entry as `process_report` actually checks
it: `value` must be present only when the entry is marked new with scope
"global" or "local"; `occurrences` must be present with complete span
fields; `is_new`, `scope` and `source_path` may be absent. -/
def entryComplete (e : RawEntry) : Bool :=
  (!(e.is_new.getD false && (e.scope == some "global" || e.scope == some "local"))
    || e.value.isSome) &&
  (match e.occurrences with
   | none => false
   | some occs => occs.all occComplete)

theorem forM_ok_iff {α : Type} (l : List α) (f : α → Except String Unit) :
    exceptForM f l = .ok () ↔ ∀ x ∈ l, f x = .ok () := by
  induction l with
  | nil => simp [exceptForM]
  | cons a as ih =>
    unfold exceptForM
    cases hf : f a with
    | error e =>
      constructor
      · intro hcontra
        cases hcontra
      · intro hall
        have := hall a (by simp)
        rw [hf] at this
        cases this
    | ok u =>
      cases u
      constructor
      · intro hrest x hx
        rcases List.mem_cons.mp hx with rfl | hx'
        · exact hf
        · exact (ih.mp hrest) x hx'
      · intro hall
        exact ih.mpr (fun x hx => hall x (List.mem_cons_of_mem a hx))

theorem parseOccPass_ok_iff (o : RawOcc) :
    parseOccPass o = .ok () ↔ occComplete o = true := by
  unfold parseOccPass occComplete
  cases o.filepath <;> cases o.lineno <;> cases o.col_offset <;>
    cases o.end_lineno <;> cases o.end_col_offset <;> simp

theorem handleEntryPass_ok_iff (e : RawEntry) :
    handleEntryPass e = .ok () ↔
      ((e.is_new.getD false && (e.scope == some "global")) = true →
        e.value.isSome = true) := by
  unfold handleEntryPass
  split
  case isTrue hc =>
    cases hv : e.value <;> simp [hc, hv]
  case isFalse hc =>
    simp [hc]

theorem parseEntryPass_ok_iff (e : RawEntry) :
    parseEntryPass e = .ok () ↔
      (((e.is_new.getD false && (e.scope.getD "global" == "local")) = true →
          e.value.isSome = true) ∧
        (match e.occurrences with
         | none => False
         | some occs => ∀ o ∈ occs, occComplete o = true)) := by
  unfold parseEntryPass
  split
  case isTrue hc =>
    simp only [Bool.and_eq_true] at hc
    constructor
    · intro hcontra
      cases hcontra
    · rintro ⟨hval, -⟩
      have := hval (by simp [hc.1.1, hc.1.2])
      rw [Option.isNone_iff_eq_none.mp hc.2] at this
      cases this
  case isFalse hc =>
    cases hocc : e.occurrences with
    | none => simp
    | some occs =>
      rw [forM_ok_iff]
      constructor
      · intro hall
        refine ⟨?_, fun o ho => (parseOccPass_ok_iff o).mp (hall o ho)⟩
        intro hnew
        by_contra hv
        exact hc (by simp [hnew, Option.isNone_iff_eq_none,
          Option.not_isSome_iff_eq_none.mp hv])
      · rintro ⟨-, hall⟩ o ho
        exact (parseOccPass_ok_iff o).mpr (hall o ho)

/-- C7 (amended): processing a report through the patch engine raises the
typed `ConstantipyError` naming a missing key exactly when some entry lacks
`occurrences`, lacks one of the five span fields inside an occurrence, or
lacks `value` while marked new with scope "global" or "local"; a missing
`is_new`, `scope` or `source_path` is silently defaulted and never fatal. -/
theorem c7_missing_key_check (report : List (String × RawEntry)) :
    process_report_check report = .ok () ↔
      ∀ p ∈ report, entryComplete p.2 = true := by
  unfold process_report_check
  constructor
  · intro hok p hp
    have hhandle : handleGlobalsPass report = .ok () := by
      cases hh : handleGlobalsPass report with
      | error k => rw [hh] at hok; cases hok
      | ok u => cases u; rfl
    have hparse : parseOccurrencesPass report = .ok () := by
      rw [hhandle] at hok
      cases hh : parseOccurrencesPass report with
      | error k => rw [hh] at hok; cases hok
      | ok u => cases u; rfl
    have h1 := (forM_ok_iff report (fun p => handleEntryPass p.2)).mp hhandle p hp
    have h2 := (forM_ok_iff report (fun p => parseEntryPass p.2)).mp hparse p hp
    have hv1 := (handleEntryPass_ok_iff p.2).mp h1
    have hv2 := (parseEntryPass_ok_iff p.2).mp h2
    unfold entryComplete
    rw [Bool.and_eq_true]
    constructor
    · rcases hval : p.2.value with _ | v
      · simp only [Bool.or_eq_true, Bool.not_eq_true']
        left
        rw [Bool.and_eq_false_iff]
        by_cases hnew : p.2.is_new.getD false = true
        · right
          rw [Bool.or_eq_false_iff]
          constructor
          · by_contra hg
            have := hv1 (by simp [hnew, Bool.of_not_eq_false hg])
            rw [hval] at this
            cases this
          · by_contra hl
            have hl' : (p.2.scope == some "local") = true := Bool.of_not_eq_false hl
            have hgetd : (p.2.scope.getD "global" == "local") = true := by
              cases hs : p.2.scope with
              | none => rw [hs] at hl'; cases hl'
              | some s => rw [hs] at hl'; simpa [hs, Option.getD] using hl'
            have := hv2.1 (by simp [hnew, hgetd])
            rw [hval] at this
            cases this
        · left
          exact Bool.not_eq_true _ ▸ (by simpa using hnew)
      · simp [hval]
    · rcases hocc : p.2.occurrences with _ | occs
      · have := hv2.2
        rw [hocc] at this
        cases this
      · have := hv2.2
        rw [hocc] at this
        simpa using fun o ho => this o ho
  · intro hall
    have hhandle : handleGlobalsPass report = .ok () := by
      unfold handleGlobalsPass
      rw [forM_ok_iff]
      intro p hp
      rw [handleEntryPass_ok_iff]
      intro hcond
      have hc := hall p hp
      unfold entryComplete at hc
      rw [Bool.and_eq_true] at hc
      rcases Bool.or_eq_true _ _ |>.mp hc.1 with hneg | hsome
      · rw [Bool.not_eq_true'] at hneg
        rw [Bool.and_eq_true] at hcond
        rw [Bool.and_eq_false_iff] at hneg
        rcases hneg with h1 | h2
        · rw [hcond.1] at h1; cases h1
        · rw [Bool.or_eq_false_iff] at h2
          rw [hcond.2] at h2
          rcases h2 with ⟨h2g, -⟩
          cases h2g
      · exact hsome
    have hparse : parseOccurrencesPass report = .ok () := by
      unfold parseOccurrencesPass
      rw [forM_ok_iff]
      intro p hp
      rw [parseEntryPass_ok_iff]
      have hc := hall p hp
      unfold entryComplete at hc
      rw [Bool.and_eq_true] at hc
      constructor
      · intro hcond
        rw [Bool.and_eq_true] at hcond
        rcases Bool.or_eq_true _ _ |>.mp hc.1 with hneg | hsome
        · rw [Bool.not_eq_true'] at hneg
          rw [Bool.and_eq_false_iff] at hneg
          rcases hneg with h1 | h2
          · rw [hcond.1] at h1; cases h1
          · have hlocal : (p.2.scope == some "local") = true := by
              cases hs : p.2.scope with
              | none =>
                rw [hs] at hcond
                have := hcond.2
                simp [Option.getD] at this
              | some s =>
                rw [hs] at hcond
                have := hcond.2
                simpa [Option.getD] using this
            rw [Bool.or_eq_false_iff] at h2
            rw [hlocal] at h2
            rcases h2 with ⟨-, h2l⟩
            cases h2l
        · exact hsome
      · rcases hocc : p.2.occurrences with _ | occs
        · rw [hocc] at hc
          have := hc.2
          cases this
        · rw [hocc] at hc
          have := hc.2
          intro o ho
          exact List.all_eq_true.mp this o ho
    rw [hhandle, hparse]

/-! ## Claim C3 -/

theorem create_new_constant_report (sess : Session) (val : Value)
    (occs : List Occ) :
    ((create_new_constant sess val occs).2).report = sess.report := by
  unfold create_new_constant
  dsimp only
  split <;> rfl

theorem create_new_constant_config (sess : Session) (val : Value)
    (occs : List Occ) :
    ((create_new_constant sess val occs).2).config = sess.config := by
  unfold create_new_constant
  dsimp only
  split <;> rfl

theorem create_new_constant_scope_global (sess : Session) (val : Value)
    (occs : List Occ)
    (h : ¬ sess.config.use_local_scope ∨
      1 < ((occs.map Occ.filepath).dedup).length) :
    (create_new_constant sess val occs).1.scope = "global" := by
  unfold create_new_constant
  dsimp only
  split
  · rfl
  · next hneg => exact absurd h hneg

theorem create_new_constant_scope_local (sess : Session) (val : Value)
    (occs : List Occ)
    (h : ¬ (¬ sess.config.use_local_scope ∨
      1 < ((occs.map Occ.filepath).dedup).length)) :
    (create_new_constant sess val occs).1.scope = "local" := by
  unfold create_new_constant
  dsimp only
  split
  · next hpos => exact absurd hpos h
  · rfl

theorem process_item_entry_of_new (sess : Session) (val : Value)
    (occs : List Occ) (hex : dictFind? sess.existing_map val = none) :
    (process_item sess val occs).2.2.scope =
      (create_new_constant sess val occs).1.scope := by
  unfold process_item
  rw [hex]

theorem one_lt_dedup_length {α : Type} [DecidableEq α] {l : List α} {a b : α}
    (ha : a ∈ l) (hb : b ∈ l) (hab : a ≠ b) : 1 < l.dedup.length := by
  have ha' : a ∈ l.dedup := List.mem_dedup.mpr ha
  have hb' : b ∈ l.dedup := List.mem_dedup.mpr hb
  rcases hd : l.dedup with _ | ⟨x, _ | ⟨y, rest⟩⟩
  · rw [hd] at ha'
    cases ha'
  · rw [hd] at ha' hb'
    simp only [List.mem_singleton] at ha' hb'
    exact absurd (ha'.trans hb'.symm) hab
  · simp [hd]

theorem dedup_length_le_one_of_all_eq {α : Type} [DecidableEq α] {l : List α}
    {c : α} (h : ∀ x ∈ l, x = c) : l.dedup.length ≤ 1 := by
  have hnd := l.nodup_dedup
  rcases hd : l.dedup with _ | ⟨x, _ | ⟨y, rest⟩⟩
  · simp
  · simp
  · exfalso
    have hx : x ∈ l.dedup := by rw [hd]; simp
    have hy : y ∈ l.dedup := by rw [hd]; simp
    have hx' := h x (List.mem_dedup.mp hx)
    have hy' := h y (List.mem_dedup.mp hy)
    rw [hd] at hnd
    have hxy : x ≠ y := by
      intro hxy
      have := (List.nodup_cons.mp hnd).1
      exact this (hxy ▸ List.mem_cons_self y rest)
    exact hxy (hx'.trans hy'.symm)

/-- C3: scope decision for a value group not matched by the
existing-constant index: the report entry's scope is "global" when the
configuration forces global scope or the occurrences span two or more
distinct files, and "local" when local scope is enabled and all occurrences
lie in a single file. -/
theorem c3_scope_decision (sess : Session) (val : Value) (occs : List Occ)
    (hex : dictFind? sess.existing_map val = none) (hne : occs ≠ []) :
    ((¬ sess.config.use_local_scope ∨
        ∃ o1 ∈ occs, ∃ o2 ∈ occs, o1.filepath ≠ o2.filepath) →
      (process_item sess val occs).2.2.scope = "global") ∧
    ((sess.config.use_local_scope ∧
        ∀ o1 ∈ occs, ∀ o2 ∈ occs, o1.filepath = o2.filepath) →
      (process_item sess val occs).2.2.scope = "local") := by
  rw [process_item_entry_of_new sess val occs hex]
  constructor
  · rintro (hforce | ⟨o1, h1, o2, h2, hne12⟩)
    · exact create_new_constant_scope_global sess val occs (Or.inl hforce)
    · refine create_new_constant_scope_global sess val occs (Or.inr ?_)
      exact one_lt_dedup_length (List.mem_map_of_mem Occ.filepath h1)
        (List.mem_map_of_mem Occ.filepath h2) hne12
  · rintro ⟨hlocal, hall⟩
    refine create_new_constant_scope_local sess val occs ?_
    push_neg
    rcases occs with _ | ⟨o0, rest⟩
    · exact absurd rfl hne
    · refine ⟨by simpa using hlocal, ?_⟩
      have hle : ((o0 :: rest).map Occ.filepath).dedup.length ≤ 1 := by
        refine dedup_length_le_one_of_all_eq (c := o0.filepath) ?_
        intro x hx
        rcases List.mem_map.mp hx with ⟨o, ho, rfl⟩
        exact hall o ho o0 (List.mem_cons_self o0 rest)
      omega

/-- A fresh session with local scope enabled and nothing loaded. -/
def c3sess : Session :=
  { config := { use_local_scope := true, naming_strategy := "derived",
                min_count := 2, constants_path := "constants.py" },
    existing_map := [], global_reserved := [], file_scope_names := [],
    name_tracker := [], report := [], idx := 1 }

/-- Witness for C3: a value occurring in two distinct files gets scope
"global", and one confined to a single file (with local scope enabled) gets
scope "local". -/
theorem c3_scope_witness :
    (process_item c3sess (Value.str "wxyz".toList)
        [⟨"a.py", none, false⟩, ⟨"b.py", none, false⟩]).2.2.scope = "global" ∧
    (process_item c3sess (Value.str "wxyz".toList)
        [⟨"a.py", none, false⟩, ⟨"a.py", none, false⟩]).2.2.scope = "local" :=
  ⟨(c3_scope_decision c3sess _ _ (by rfl) (by decide)).1
      (Or.inr ⟨⟨"a.py", none, false⟩, by decide, ⟨"b.py", none, false⟩, by decide,
        by decide⟩),
   (c3_scope_decision c3sess _ _ (by rfl) (by decide)).2
      ⟨by decide, by decide⟩⟩

/-! ## Claim C4 -/

theorem mem_dictSet {α β : Type} [BEq α] {d : List (α × β)} {k : α} {v : β}
    {p : α × β} (hp : p ∈ dictSet d k v) : p ∈ d ∨ p = (k, v) := by
  unfold dictSet at hp
  split at hp
  · rcases List.mem_map.mp hp with ⟨q, hq, heq⟩
    by_cases h : (q.1 == k) = true
    · right
      rw [← heq]
      simp [h]
    · left
      rw [← heq]
      simp only [h, Bool.false_eq_true, if_false]
      exact hq
  · rcases List.mem_append.mp hp with h | h
    · left
      exact h
    · right
      simpa using h

theorem process_item_report_mem (sess : Session) (val : Value)
    (occs : List Occ) {p : Chars × ReportEntry}
    (hp : p ∈ ((process_item sess val occs).1).report) :
    p ∈ sess.report ∨ p.2.value = val := by
  unfold process_item at hp
  cases hex : dictFind? sess.existing_map val with
  | some entry =>
    rw [hex] at hp
    rcases mem_dictSet hp with h | h
    · exact Or.inl h
    · right
      rw [h]
  | none =>
    rw [hex] at hp
    have hp' : p ∈ dictSet (((create_new_constant sess val occs).2).report)
        ((create_new_constant sess val occs).1).final_name
        { value := val, occurrences := occs,
          is_new := ((create_new_constant sess val occs).1).is_new,
          source_path := some ((create_new_constant sess val occs).1).source_path,
          scope := ((create_new_constant sess val occs).1).scope } := hp
    rcases mem_dictSet hp' with h | h
    · rw [create_new_constant_report] at h
      exact Or.inl h
    · right
      rw [h]

theorem process_item_config (sess : Session) (val : Value) (occs : List Occ) :
    ((process_item sess val occs).1).config = sess.config := by
  unfold process_item
  cases hex : dictFind? sess.existing_map val with
  | some entry => rfl
  | none => exact create_new_constant_config sess val occs

theorem analyzeStep_config (s : Session) (g : Value × List Occ) :
    (analyzeStep s g).config = s.config := by
  unfold analyzeStep
  split
  · rfl
  · exact process_item_config s g.1 g.2

theorem analyzeLoop_report_mem (s : Session) (l : List (Value × List Occ))
    {p : Chars × ReportEntry} (hp : p ∈ (l.foldl analyzeStep s).report) :
    p ∈ s.report ∨
      ∃ g ∈ l, ¬ (g.2.length < s.config.min_count) ∧ p.2.value = g.1 := by
  induction l generalizing s with
  | nil => exact Or.inl hp
  | cons g gs ih =>
    rw [List.foldl_cons] at hp
    rcases ih (analyzeStep s g) hp with h | ⟨g', hg', hcnt, hval⟩
    · unfold analyzeStep at h
      split at h
      · exact Or.inl h
      · next hkeep =>
        rcases process_item_report_mem s g.1 g.2 h with h' | h'
        · exact Or.inl h'
        · exact Or.inr ⟨g, List.mem_cons_self g gs, hkeep, h'⟩
    · rw [analyzeStep_config] at hcnt
      exact Or.inr ⟨g', List.mem_cons_of_mem g hg', hcnt, hval⟩

theorem insertDesc_perm (x : Value × List Occ) (l : List (Value × List Occ)) :
    (insertDesc x l).Perm (x :: l) := by
  induction l with
  | nil => exact List.Perm.refl _
  | cons y ys ih =>
    unfold insertDesc
    split
    · exact List.Perm.refl _
    · exact ((ih.cons y).trans (List.Perm.swap x y ys))

theorem sortGroupsDesc_perm (l : List (Value × List Occ)) :
    (sortGroupsDesc l).Perm l := by
  induction l with
  | nil => exact List.Perm.refl _
  | cons x xs ih =>
    exact (insertDesc_perm x (sortGroupsDesc xs)).trans (ih.cons x)

theorem eq_of_nodup_keys {α β : Type} {l : List (α × β)}
    (hnd : (l.map Prod.fst).Nodup) {p q : α × β}
    (hp : p ∈ l) (hq : q ∈ l) (h : p.1 = q.1) : p = q := by
  induction l with
  | nil => cases hp
  | cons a as ih =>
    rw [List.map_cons, List.nodup_cons] at hnd
    rcases List.mem_cons.mp hp with rfl | hp' <;>
      rcases List.mem_cons.mp hq with rfl | hq'
    · rfl
    · exact absurd (h ▸ List.mem_map_of_mem Prod.fst hq') hnd.1
    · exact absurd (h ▸ List.mem_map_of_mem Prod.fst hp') hnd.1
    · exact ih hnd.2 hp' hq'

/-- C4: a value-identity group whose occurrence count is strictly below the
configured minimum contributes no report entry: no entry of the returned
report carries that group's value. -/
theorem c4_threshold (config : AnalysisConfig)
    (existing_map : List (Value × ExistingEntry)) (global_reserved : List Chars)
    (file_scope_names : List (String × List Chars))
    (groups : List (Value × List Occ)) (val : Value) (occs : List Occ)
    (hnd : (groups.map Prod.fst).Nodup)
    (hmem : (val, occs) ∈ groups)
    (hlt : occs.length < config.min_count) :
    ∀ p ∈ (analyze (initialSession config existing_map global_reserved
        file_scope_names) groups).report, p.2.value ≠ val := by
  intro p hp hval
  unfold analyze at hp
  rcases analyzeLoop_report_mem _ _ hp with h | ⟨g, hg, hcnt, hgval⟩
  · cases h
  · have hg' : g ∈ groups := (sortGroupsDesc_perm groups).mem_iff.mp hg
    have hkey : g.1 = val := by rw [← hgval, hval]
    have : g = (val, occs) := eq_of_nodup_keys hnd hg' hmem hkey
    rw [this] at hcnt
    exact hcnt hlt

def c4config : AnalysisConfig :=
  { use_local_scope := true, naming_strategy := "derived", min_count := 2,
    constants_path := "constants.py" }

/-- One value, one occurrence: below the minimum count of 2. -/
def c4groups : List (Value × List Occ) :=
  [(Value.str "abcd".toList, [⟨"a.py", none, false⟩])]

/-- Witness for C4: a single group of one occurrence with minimum count 2
leaves the report without any entry carrying its value. -/
theorem c4_threshold_witness :
    (Value.str "abcd".toList, [(⟨"a.py", none, false⟩ : Occ)]) ∈ c4groups ∧
    [(⟨"a.py", none, false⟩ : Occ)].length < c4config.min_count ∧
    (∀ p ∈ (analyze (initialSession c4config [] [] []) c4groups).report,
      p.2.value ≠ Value.str "abcd".toList) :=
  ⟨by decide, by decide,
    c4_threshold c4config [] [] [] c4groups (Value.str "abcd".toList)
      [⟨"a.py", none, false⟩] (by decide) (by decide) (by decide)⟩

/-! ## Claim C6 -/

theorem charsLt_cons_cons (p q : Char) (ps qs : Chars) :
    charsLt (p :: ps) (q :: qs) =
      (if p < q then true else if q < p then false else charsLt ps qs) := rfl

theorem charsLt_trans {a b c : Chars} (h1 : charsLt a b = true)
    (h2 : charsLt b c = true) : charsLt a c = true := by
  induction a generalizing b c with
  | nil =>
    cases b with
    | nil => cases h1
    | cons q qs =>
      cases c with
      | nil => cases h2
      | cons r rs => rfl
  | cons p ps ih =>
    cases b with
    | nil => cases h1
    | cons q qs =>
      cases c with
      | nil => cases h2
      | cons r rs =>
        rw [charsLt_cons_cons] at h1 h2 ⊢
        rcases lt_trichotomy p q with hpq | rfl | hqp
        · rcases lt_trichotomy q r with hqr | rfl | hrq
          · rw [if_pos (lt_trans hpq hqr)]
          · rw [if_pos hpq]
          · rw [if_neg (lt_asymm hrq), if_pos hrq] at h2
            cases h2
        · rw [if_neg (lt_irrefl p), if_neg (lt_irrefl p)] at h1
          rcases lt_trichotomy p r with hpr | rfl | hrp
          · rw [if_pos hpr]
          · rw [if_neg (lt_irrefl p), if_neg (lt_irrefl p)] at h2 ⊢
            exact ih h1 h2
          · rw [if_neg (lt_asymm hrp), if_pos hrp] at h2
            cases h2
        · rw [if_neg (lt_asymm hqp), if_pos hqp] at h1
          cases h1

theorem charsLt_asymm {a b : Chars} (h : charsLt a b = true) :
    charsLt b a = false := by
  induction a generalizing b with
  | nil =>
    cases b with
    | nil => cases h
    | cons q qs => rfl
  | cons p ps ih =>
    cases b with
    | nil => cases h
    | cons q qs =>
      rw [charsLt_cons_cons] at h ⊢
      rcases lt_trichotomy p q with hpq | rfl | hqp
      · rw [if_neg (lt_asymm hpq), if_pos hpq]
      · rw [if_neg (lt_irrefl p), if_neg (lt_irrefl p)] at h ⊢
        exact ih h
      · rw [if_neg (lt_asymm hqp), if_pos hqp] at h
        cases h

theorem charsLt_conn {a b : Chars} (h1 : charsLt a b = false)
    (h2 : charsLt b a = false) : a = b := by
  induction a generalizing b with
  | nil =>
    cases b with
    | nil => rfl
    | cons q qs => cases h1
  | cons p ps ih =>
    cases b with
    | nil => cases h2
    | cons q qs =>
      rw [charsLt_cons_cons] at h1 h2
      rcases lt_trichotomy p q with hpq | rfl | hqp
      · rw [if_pos hpq] at h1
        cases h1
      · rw [if_neg (lt_irrefl p), if_neg (lt_irrefl p)] at h1 h2
        rw [ih h1 h2]
      · rw [if_pos hqp] at h2
        cases h2

theorem mem_insertAsc {x z : Chars} {l : List Chars}
    (h : z ∈ insertAsc x l) : z = x ∨ z ∈ l := by
  induction l with
  | nil =>
    unfold insertAsc at h
    exact Or.inl (List.mem_singleton.mp h)
  | cons y ys ih =>
    unfold insertAsc at h
    split at h
    · rcases List.mem_cons.mp h with rfl | h'
      · exact Or.inr (List.mem_cons_self _ _)
      · rcases ih h' with h'' | h''
        · exact Or.inl h''
        · exact Or.inr (List.mem_cons_of_mem _ h'')
    · rcases List.mem_cons.mp h with rfl | h'
      · exact Or.inl rfl
      · exact Or.inr h'

theorem insertAsc_perm (x : Chars) (l : List Chars) :
    (insertAsc x l).Perm (x :: l) := by
  induction l with
  | nil => exact List.Perm.refl _
  | cons y ys ih =>
    unfold insertAsc
    split
    · exact (ih.cons y).trans (List.Perm.swap x y ys)
    · exact List.Perm.refl _

theorem sortChars_perm (l : List Chars) : (sortChars l).Perm l := by
  induction l with
  | nil => exact List.Perm.refl _
  | cons x xs ih =>
    exact (insertAsc_perm x (sortChars xs)).trans (ih.cons x)

theorem notLt_trans {x y z : Chars} (h1 : charsLt y x = false)
    (h2 : charsLt z y = false) : charsLt z x = false := by
  by_contra hzx
  have hzx' : charsLt z x = true := by
    cases h : charsLt z x
    · exact absurd h hzx
    · rfl
  cases hyz : charsLt y z with
  | true =>
    have := charsLt_trans hyz hzx'
    rw [this] at h1
    cases h1
  | false =>
    have : z = y := charsLt_conn h2 hyz
    rw [this] at hzx'
    rw [hzx'] at h1
    cases h1

theorem insertAsc_pairwise (x : Chars) (l : List Chars)
    (h : l.Pairwise (fun a b => charsLt b a = false)) :
    (insertAsc x l).Pairwise (fun a b => charsLt b a = false) := by
  induction l with
  | nil =>
    unfold insertAsc
    exact List.pairwise_singleton _ _
  | cons y ys ih =>
    rw [List.pairwise_cons] at h
    unfold insertAsc
    split
    · next hyx =>
      rw [List.pairwise_cons]
      refine ⟨?_, ih h.2⟩
      intro z hz
      rcases mem_insertAsc hz with rfl | hz'
      · exact charsLt_asymm hyx
      · exact h.1 z hz'
    · next hyx =>
      have hyx' : charsLt y x = false := by
        cases hc : charsLt y x
        · rfl
        · exact absurd hc hyx
      rw [List.pairwise_cons]
      refine ⟨?_, List.pairwise_cons.mpr h⟩
      intro z hz
      rcases List.mem_cons.mp hz with rfl | hz'
      · exact hyx'
      · exact notLt_trans hyx' (h.1 z hz')

theorem sortChars_pairwise (l : List Chars) :
    (sortChars l).Pairwise (fun a b => charsLt b a = false) := by
  induction l with
  | nil => exact List.Pairwise.nil
  | cons x xs ih => exact insertAsc_pairwise x (sortChars xs) ih

theorem mem_usedGlobalNames {reps : List Rep} {n : Chars} :
    n ∈ usedGlobalNames reps ↔ ∃ r ∈ reps, r.scope = "global" ∧ r.name = n := by
  unfold usedGlobalNames
  rw [(sortChars_perm _).mem_iff, List.mem_dedup, List.mem_filterMap]
  constructor
  · rintro ⟨r, hr, hfr⟩
    by_cases hs : (r.scope == "global") = true
    · rw [if_pos hs] at hfr
      exact ⟨r, hr, by simpa using hs, by simpa using hfr⟩
    · rw [if_neg hs] at hfr
      cases hfr
  · rintro ⟨r, hr, hscope, hname⟩
    refine ⟨r, hr, ?_⟩
    rw [if_pos (by simpa using hscope), hname]

theorem nodup_usedGlobalNames (reps : List Rep) :
    (usedGlobalNames reps).Nodup :=
  (sortChars_perm _).nodup_iff.mpr (List.nodup_dedup _)

def c6buf : List Chars := ["MAGIC = 'magic'\n".toList]

/-- The sole replacement for the buffer: global scope, but targeting the
very identifier its occurrence defines, so `_apply_replacements` skips it
(no surviving replacement uses MAGIC). -/
def c6rep : Rep :=
  { name := "MAGIC".toList, definition_of := some "MAGIC".toList,
    scope := "global", start_line := 1, start_col := 8, end_line := 1,
    end_col := 15 }

/-- C6 counterexample: the only replacement for the file is skipped (it is
a self-definition replacement, so the set of names used by surviving
replacements is empty and the claim says no import is inserted), yet the
engine still inserts an import statement naming MAGIC, because
`_insert_global_imports` collects names from all replacements, not only
surviving ones. -/
theorem c6_counterexample :
    apply_replacements c6buf [c6rep] = .ok (c6buf, false) ∧
    insert_global_imports c6buf [c6rep] "constants".toList 0 =
      (["from constants import MAGIC\n".toList, "MAGIC = 'magic'\n".toList],
        true, ["MAGIC".toList]) :=
  ⟨rfl, rfl⟩

/-- C6 (amended): the set of names placed in the import statement is
exactly the distinct global-scope names of all replacements targeted at the
file (whether applied or skipped), in ascending sorted order without
duplicates; if that set is non-empty and no buffer line contains the
statement text, exactly one aggregated import statement is inserted (the
buffer grows by exactly one line), and otherwise the buffer is left
unchanged. -/
theorem c6_import_insertion (lines : List Chars) (reps : List Rep)
    (module_name : Chars) (insert_idx : Nat) :
    (∀ n, n ∈ usedGlobalNames reps ↔
      ∃ r ∈ reps, r.scope = "global" ∧ r.name = n) ∧
    (usedGlobalNames reps).Nodup ∧
    (usedGlobalNames reps).Pairwise (fun a b => charsLt b a = false) ∧
    (usedGlobalNames reps = [] →
      insert_global_imports lines reps module_name insert_idx =
        (lines, false, [])) ∧
    (usedGlobalNames reps ≠ [] →
      ((∃ line ∈ lines,
          containsSub (pyStrip (importStmt module_name (usedGlobalNames reps)))
            line = true) →
        insert_global_imports lines reps module_name insert_idx =
          (lines, false, usedGlobalNames reps)) ∧
      ((∀ line ∈ lines,
          containsSub (pyStrip (importStmt module_name (usedGlobalNames reps)))
            line = false) →
        insert_global_imports lines reps module_name insert_idx =
          (insertAt lines insert_idx
            (importStmt module_name (usedGlobalNames reps)),
           true, usedGlobalNames reps) ∧
        (insertAt lines insert_idx
          (importStmt module_name (usedGlobalNames reps))).length =
          lines.length + 1)) := by
  refine ⟨fun n => mem_usedGlobalNames, nodup_usedGlobalNames reps,
    sortChars_pairwise _, ?_, ?_⟩
  · intro hempty
    unfold insert_global_imports
    rw [if_pos hempty]
  · intro hne
    constructor
    · rintro ⟨line, hline, hsub⟩
      unfold insert_global_imports
      rw [if_neg hne, if_pos (List.any_eq_true.mpr ⟨line, hline, hsub⟩)]
    · intro hnone
      have hany : lines.any (fun line =>
          containsSub (pyStrip (importStmt module_name (usedGlobalNames reps)))
            line) = false := by
        rw [Bool.eq_false_iff]
        intro hcontra
        rcases List.any_eq_true.mp hcontra with ⟨line, hline, hsub⟩
        rw [hnone line hline] at hsub
        cases hsub
      constructor
      · unfold insert_global_imports
        rw [if_neg hne, if_neg (by rw [hany]; exact fun h => by cases h)]
      · unfold insertAt
        rw [List.length_append, List.length_cons, List.length_take,
          List.length_drop]
        omega

/-- Witness for the amended C6 theorem at the counterexample input: the set
of names is non-empty, no line contains the statement, and exactly one line
with the aggregated import is inserted. -/
theorem c6_import_witness :
    insert_global_imports c6buf [c6rep] "constants".toList 0 =
      (insertAt c6buf 0 (importStmt "constants".toList (usedGlobalNames [c6rep])),
       true, usedGlobalNames [c6rep]) ∧
    (insertAt c6buf 0
      (importStmt "constants".toList (usedGlobalNames [c6rep]))).length =
      c6buf.length + 1 :=
  ((c6_import_insertion c6buf [c6rep] "constants".toList 0).2.2.2.2
    (by decide)).2 (by decide)

/-! ## Claim C5 -/

/-- The number of physical text lines of a buffer: one per newline
character (`_process_single_file` guarantees the buffer is
newline-terminated before replacements are applied). -/
def newlineCount : List Chars → Nat
  | [] => 0
  | l :: ls => l.count '\n' + newlineCount ls

def c5buf : List Chars :=
  ["x = [\n".toList, "  1,\n".toList, "  2\n".toList, "]\n".toList]

/-- The multi-line replacement for the 4-line literal `[\n  1,\n  2\n]`. -/
def c5rep : Rep :=
  { name := "C".toList, definition_of := none, scope := "local",
    start_line := 1, start_col := 4, end_line := 4, end_col := 1 }

/-- C5 counterexample: the multi-line replacement spanning lines 1..4
(end − start = 3) leaves a buffer with 2 physical lines, not 4 − 3 = 1:
the suffix of the last line stays on its own line (the name line ends with
an explicit newline) and interior list entries are blanked, not removed
(the list length stays 4). -/
theorem c5_counterexample :
    apply_replacements c5buf [c5rep] =
      .ok (["x = C\n".toList, [], [], "\n".toList], true) ∧
    newlineCount c5buf = 4 ∧
    newlineCount ["x = C\n".toList, [], [], "\n".toList] = 2 ∧
    c5rep.end_line - c5rep.start_line = 3 ∧
    (["x = C\n".toList, [], [], "\n".toList] : List Chars).length =
      c5buf.length ∧
    newlineCount ["x = C\n".toList, [], [], "\n".toList] ≠
      newlineCount c5buf - (c5rep.end_line - c5rep.start_line).toNat :=
  ⟨rfl, by decide, by decide, by decide, by decide, by decide⟩

theorem getD_mem (l : List Chars) (i : Nat) (h : i < l.length) :
    l.getD i [] ∈ l := by
  rw [List.getD_eq_getElem l [] h]
  exact List.getElem_mem h

theorem pyIdx_natCast (n i : Nat) (h : i < n) : pyIdx n (i : Int) = some i := by
  unfold pyIdx
  rw [if_neg (by omega), if_pos (by exact_mod_cast h)]
  simp

theorem pyGetLine_ok (lines : List Chars) (i : Nat) (h : i < lines.length) :
    pyGetLine lines (i : Int) = .ok (lines.getD i []) := by
  unfold pyGetLine
  rw [pyIdx_natCast _ _ h]

theorem pySetLine_ok (lines : List Chars) (i : Nat) (x : Chars)
    (h : i < lines.length) :
    pySetLine lines (i : Int) x = .ok (lines.set i x) := by
  unfold pySetLine
  rw [pyIdx_natCast _ _ h]

theorem pySliceTo_natCast (l : Chars) (k : Nat) :
    pySliceTo l (k : Int) = l.take k := by
  unfold pySliceTo
  rw [if_neg (by omega)]
  simp

theorem pySliceFrom_natCast (l : Chars) (k : Nat) :
    pySliceFrom l (k : Int) = l.drop k := by
  unfold pySliceFrom
  rw [if_neg (by omega)]
  simp

theorem getD_set_self (l : List Chars) (i : Nat) (x : Chars)
    (h : i < l.length) : (l.set i x).getD i [] = x := by
  simp [List.getD_eq_getElem?_getD, List.getElem?_set_self', h]

theorem getD_set_ne (l : List Chars) (i j : Nat) (x : Chars) (h : i ≠ j) :
    (l.set i x).getD j [] = l.getD j [] := by
  simp [List.getD_eq_getElem?_getD, List.getElem?_set_ne h]

theorem newlineCount_set (lines : List Chars) (i : Nat) (x : Chars)
    (h : i < lines.length) :
    newlineCount (lines.set i x) + (lines.getD i []).count '\n' =
      newlineCount lines + x.count '\n' := by
  induction lines generalizing i with
  | nil => simp at h
  | cons a as ih =>
    cases i with
    | zero =>
      simp only [List.set, newlineCount, List.getD_cons_zero]
      omega
    | succ n =>
      have hn : n < as.length := by simpa using h
      have := ih n hn
      simp only [List.set, newlineCount, List.getD_cons_succ]
      omega

theorem wf_count {c l : Chars} (hl : l = c ++ ['\n']) (hc : '\n' ∉ c) :
    l.count '\n' = 1 := by
  subst hl
  rw [List.count_append]
  rw [List.count_eq_zero.mpr hc]
  rfl

theorem wf_take_count {c l : Chars} (hl : l = c ++ ['\n']) (hc : '\n' ∉ c)
    {k : Nat} (hk : k ≤ c.length) : (l.take k).count '\n' = 0 := by
  subst hl
  rw [List.take_append_of_le_length hk]
  exact List.count_eq_zero.mpr (fun hmem => hc (List.take_subset k c hmem))

theorem wf_drop_count {c l : Chars} (hl : l = c ++ ['\n']) (hc : '\n' ∉ c)
    {k : Nat} (hk : k ≤ c.length) : (l.drop k).count '\n' = 1 := by
  have h1 : l.count '\n' = 1 := wf_count hl hc
  have h2 : (l.take k).count '\n' = 0 := wf_take_count hl hc hk
  have h3 : (l.take k).count '\n' + (l.drop k).count '\n' = l.count '\n' := by
    rw [← List.count_append, List.take_append_drop]
  omega

theorem clearLoop_spec (k : Nat) (lines : List Chars) (j : Nat)
    (hrange : j + k ≤ lines.length)
    (hcnt : ∀ i, j ≤ i → i < j + k → (lines.getD i []).count '\n' = 1) :
    ∃ res, clearLoop k lines j = .ok res ∧
      res.length = lines.length ∧
      (∀ i, res.getD i [] =
        if j ≤ i ∧ i < j + k then [] else lines.getD i []) ∧
      newlineCount res + k = newlineCount lines := by
  induction k generalizing lines j with
  | zero =>
    refine ⟨lines, rfl, rfl, ?_, rfl⟩
    intro i
    rw [if_neg (by omega)]
  | succ k ih =>
    have hj : j < lines.length := by omega
    have hset := pySetLine_ok lines j [] hj
    have hrange' : (j + 1) + k ≤ (lines.set j []).length := by
      rw [List.length_set]
      omega
    have hcnt' : ∀ i, j + 1 ≤ i → i < (j + 1) + k →
        ((lines.set j []).getD i []).count '\n' = 1 := by
      intro i h1 h2
      rw [getD_set_ne _ _ _ _ (by omega)]
      exact hcnt i (by omega) (by omega)
    rcases ih (lines.set j []) (j + 1) hrange' hcnt' with
      ⟨res, hok, hlen, hgetD, hnc⟩
    refine ⟨res, ?_, ?_, ?_, ?_⟩
    · unfold clearLoop
      rw [hset]
      exact hok
    · rw [hlen, List.length_set]
    · intro i
      rw [hgetD i]
      by_cases hij : i = j
      · subst hij
        rw [if_neg (by omega), if_pos (by omega)]
        exact getD_set_self lines i [] hj
      · by_cases hin : j + 1 ≤ i ∧ i < (j + 1) + k
        · rw [if_pos hin, if_pos (by omega)]
        · rw [if_neg hin, if_neg (by omega)]
          exact getD_set_ne lines j i [] (fun h => hij h.symm)
    · have hone : (lines.getD j []).count '\n' = 1 := hcnt j (by omega) (by omega)
      have hz := newlineCount_set lines j [] hj
      rw [hone] at hz
      simp only [List.count_nil] at hz
      omega

/-- C5 (amended): for a well-formed newline-terminated buffer and a
replacement with in-content columns and in-range lines, a single-line
replacement keeps both the list length and the physical line count, and a
multi-line replacement keeps the list length but reduces the physical line
count by (end line − start line − 1): the prefix of the first line plus the
target name forms one newline-terminated line, every fully interior line is
blanked to an empty entry, and the suffix of the last line is retained as
its own line. -/
theorem c5_span_integrity (lines : List Chars) (r : Rep) (sL eL sC eC : Nat)
    (hwf : ∀ l ∈ lines, ∃ c, l = c ++ ['\n'] ∧ '\n' ∉ c)
    (hname : '\n' ∉ r.name)
    (hdef : (r.definition_of == some r.name) = false)
    (hsl : r.start_line = (sL : Int) + 1) (hel : r.end_line = (eL : Int) + 1)
    (hsc : r.start_col = (sC : Int)) (hec : r.end_col = (eC : Int))
    (hs : sL < lines.length) :
    (sL = eL → sC ≤ eC → eC + 1 ≤ (lines.getD sL []).length →
      ∃ res, apply_replacements lines [r] = .ok (res, true) ∧
        res.length = lines.length ∧
        newlineCount res = newlineCount lines ∧
        res.getD sL [] =
          (lines.getD sL []).take sC ++ r.name ++ (lines.getD sL []).drop eC ∧
        (∀ i, i ≠ sL → res.getD i [] = lines.getD i [])) ∧
    (sL < eL → eL < lines.length →
      sC + 1 ≤ (lines.getD sL []).length →
      eC + 1 ≤ (lines.getD eL []).length →
      ∃ res, apply_replacements lines [r] = .ok (res, true) ∧
        res.length = lines.length ∧
        newlineCount res + (eL - sL - 1) = newlineCount lines ∧
        res.getD sL [] = (lines.getD sL []).take sC ++ r.name ++ ['\n'] ∧
        (∀ i, sL < i → i < eL → res.getD i [] = []) ∧
        res.getD eL [] = (lines.getD eL []).drop eC ∧
        (∀ i, i < sL ∨ eL < i → res.getD i [] = lines.getD i [])) := by
  have hwfs := hwf (lines.getD sL []) (getD_mem _ _ hs)
  constructor
  · -- single-line branch
    intro hle hcc hcol
    rcases hwfs with ⟨c, hc, hcnl⟩
    have hclen : (lines.getD sL []).length = c.length + 1 := by
      rw [hc, List.length_append, List.length_singleton]
    have happ : apply_one lines r =
        .ok (lines.set sL ((lines.getD sL []).take sC ++ r.name ++
          (lines.getD sL []).drop eC), true) := by
      unfold apply_one
      rw [hdef]
      simp only [Bool.false_eq_true, if_false]
      rw [hsl, hel, hsc, hec, ← hle]
      have he1 : ((sL : Int) + 1) - 1 = (sL : Int) := by ring
      rw [he1]
      rw [if_neg (by push_neg; constructor <;> [omega; exact_mod_cast hs])]
      rw [if_pos rfl]
      rw [if_neg (by
        push_neg
        constructor
        · omega
        · rw [Int.toNat_natCast]
          exact_mod_cast Nat.le_of_succ_le_succ (by omega))]
      rw [Int.toNat_natCast, pySliceTo_natCast, pySliceFrom_natCast]
    refine ⟨lines.set sL ((lines.getD sL []).take sC ++ r.name ++
      (lines.getD sL []).drop eC), ?_, ?_, ?_, ?_, ?_⟩
    · unfold apply_replacements applyLoop
      rw [happ]
      rfl
    · exact List.length_set ..
    · have hz := newlineCount_set lines sL
        ((lines.getD sL []).take sC ++ r.name ++ (lines.getD sL []).drop eC) hs
      have hcold : (lines.getD sL []).count '\n' = 1 := wf_count hc hcnl
      have hnew : ((lines.getD sL []).take sC ++ r.name ++
          (lines.getD sL []).drop eC).count '\n' = 1 := by
        rw [List.count_append, List.count_append]
        rw [wf_take_count hc hcnl (by omega)]
        rw [List.count_eq_zero.mpr hname]
        rw [wf_drop_count hc hcnl (by omega)]
      rw [hcold, hnew] at hz
      omega
    · exact getD_set_self lines sL _ hs
    · intro i hi
      exact getD_set_ne lines sL i _ (fun h => hi h.symm)
  · -- multi-line branch
    intro hlt hel' hscol hecol
    rcases hwfs with ⟨c, hc, hcnl⟩
    have hwfe := hwf (lines.getD eL []) (getD_mem _ _ hel')
    rcases hwfe with ⟨ce, hce, hcenl⟩
    have hclen : (lines.getD sL []).length = c.length + 1 := by
      rw [hc, List.length_append, List.length_singleton]
    have hcelen : (lines.getD eL []).length = ce.length + 1 := by
      rw [hce, List.length_append, List.length_singleton]
    -- the first-line update
    set firstNew : Chars :=
      (lines.getD sL []).take sC ++ r.name ++ ['\n'] with hfirst
    set lines1 : List Chars := lines.set sL firstNew with hlines1
    have hlen1 : lines1.length = lines.length := List.length_set ..
    -- clear the interior lines of lines1
    have hrange1 : (sL + 1) + (eL - sL - 1) ≤ lines1.length := by
      rw [hlen1]
      omega
    have hcnt1 : ∀ i, sL + 1 ≤ i → i < (sL + 1) + (eL - sL - 1) →
        ((lines1.getD i []).count '\n') = 1 := by
      intro i h1 h2
      rw [hlines1, getD_set_ne _ _ _ _ (by omega)]
      rcases hwf (lines.getD i []) (getD_mem _ _ (by omega)) with
        ⟨ci, hci, hcinl⟩
      exact wf_count hci hcinl
    rcases clearLoop_spec (eL - sL - 1) lines1 (sL + 1) hrange1 hcnt1 with
      ⟨lines2, hok2, hlen2, hgetD2, hnc2⟩
    set res : List Chars := lines2.set eL ((lines.getD eL []).drop eC) with hres
    have heL2 : lines2.getD eL [] = lines.getD eL [] := by
      rw [hgetD2 eL, if_neg (by omega), hlines1,
        getD_set_ne _ _ _ _ (by omega)]
    have happ : apply_one lines r = .ok (res, true) := by
      unfold apply_one
      rw [hdef]
      simp only [Bool.false_eq_true, if_false]
      rw [hsl, hel, hsc, hec]
      have he1 : ((sL : Int) + 1) - 1 = (sL : Int) := by ring
      have he2 : ((eL : Int) + 1) - 1 = (eL : Int) := by ring
      rw [he1, he2]
      rw [if_neg (by push_neg; constructor <;> [omega; exact_mod_cast hs])]
      rw [if_neg (by intro h; exact absurd (by exact_mod_cast h) (by omega))]
      rw [pyGetLine_ok lines sL hs]
      dsimp only
      rw [Int.toNat_natCast, pySliceTo_natCast, pySetLine_ok lines sL
        ((lines.getD sL []).take sC ++ r.name ++ ['\n']) hs]
      dsimp only
      have hk : ((eL : Int) - ((sL : Int) + 1)).toNat = eL - sL - 1 := by
        omega
      rw [hk, ← hfirst, ← hlines1, hok2]
      dsimp only
      have hel2 : eL < lines2.length := by
        rw [hlen2, hlen1]
        exact hel'
      rw [pyGetLine_ok lines2 eL hel2]
      dsimp only
      rw [heL2, pySliceFrom_natCast, pySetLine_ok lines2 eL _ hel2]
    refine ⟨res, ?_, ?_, ?_, ?_, ?_, ?_, ?_⟩
    · unfold apply_replacements applyLoop
      rw [happ]
      rfl
    · rw [hres, List.length_set, hlen2, hlen1]
    · -- physical line count
      have hel2 : eL < lines2.length := by
        rw [hlen2, hlen1]
        exact hel'
      have hz := newlineCount_set lines2 eL ((lines.getD eL []).drop eC) hel2
      rw [heL2] at hz
      have hcnte : (lines.getD eL []).count '\n' = 1 := wf_count hce hcenl
      have hdropcnt : ((lines.getD eL []).drop eC).count '\n' = 1 :=
        wf_drop_count hce hcenl (by omega)
      rw [hcnte, hdropcnt] at hz
      rw [← hres] at hz
      -- newlineCount lines1 = newlineCount lines
      have hz1 := newlineCount_set lines sL firstNew hs
      have hcnts : (lines.getD sL []).count '\n' = 1 := wf_count hc hcnl
      have hfirstcnt : firstNew.count '\n' = 1 := by
        rw [hfirst, List.count_append, List.count_append]
        rw [wf_take_count hc hcnl (by omega)]
        rw [List.count_eq_zero.mpr hname]
        rfl
      rw [hcnts, hfirstcnt] at hz1
      rw [← hlines1] at hz1
      omega
    · rw [hres, getD_set_ne _ _ _ _ (by omega), hgetD2 sL,
        if_neg (by omega), hlines1, getD_set_self lines sL firstNew hs]
    · intro i h1 h2
      rw [hres, getD_set_ne _ _ _ _ (by omega), hgetD2 i,
        if_pos (by omega)]
    · have hel2 : eL < lines2.length := by
        rw [hlen2, hlen1]
        exact hel'
      rw [hres, getD_set_self lines2 eL _ hel2]
    · intro i hi
      have hine : eL ≠ i := by omega
      rw [hres, getD_set_ne _ _ _ _ hine, hgetD2 i, if_neg (by omega),
        hlines1, getD_set_ne _ _ _ _ (by omega)]

/-- Witness for the amended C5 theorem at the counterexample buffer: the
multi-line branch applies with sL = 0, eL = 3, so the physical line count
drops from 4 to 2 (by end − start − 1 = 2). -/
theorem c5_span_witness :
    ∃ res, apply_replacements c5buf [c5rep] = .ok (res, true) ∧
      res.length = c5buf.length ∧
      newlineCount res + (3 - 0 - 1) = newlineCount c5buf ∧
      res.getD 0 [] = (c5buf.getD 0 []).take 4 ++ c5rep.name ++ ['\n'] ∧
      (∀ i, 0 < i → i < 3 → res.getD i [] = []) ∧
      res.getD 3 [] = (c5buf.getD 3 []).drop 1 ∧
      (∀ i, i < 0 ∨ 3 < i → res.getD i [] = c5buf.getD i []) :=
  (c5_span_integrity c5buf c5rep 0 3 4 1
      (by
        intro l hl
        simp only [c5buf, List.mem_cons, List.not_mem_nil, or_false] at hl
        rcases hl with rfl | rfl | rfl | rfl
        · exact ⟨"x = [".toList, by decide, by decide⟩
        · exact ⟨"  1,".toList, by decide, by decide⟩
        · exact ⟨"  2".toList, by decide, by decide⟩
        · exact ⟨"]".toList, by decide, by decide⟩)
      (by decide) (by decide) (by decide) (by decide) (by decide)
      (by decide) (by decide)).2
    (by decide) (by decide) (by decide) (by decide)

/-! ## Claim C9 -/

/-- A character allowed after the first position of a Python identifier
(restricted to the ASCII alphabet the heuristics emit). -/
def validChar (c : Char) : Bool := isAsciiAlnum c || c = '_'

/-- Syntactic validity of an identifier: non-empty, the first character a
letter or underscore, the rest alphanumeric or underscore. -/
def validIdent (l : Chars) : Bool :=
  match l with
  | [] => false
  | c :: rest => (c.isAlpha || c = '_') && rest.all validChar

theorem alnum_toNat {c : Char} (h : isAsciiAlnum c = true) :
    (97 ≤ c.toNat ∧ c.toNat ≤ 122) ∨ (65 ≤ c.toNat ∧ c.toNat ≤ 90) ∨
      (48 ≤ c.toNat ∧ c.toNat ≤ 57) := by
  unfold isAsciiAlnum at h
  simp only [Bool.or_eq_true, Bool.and_eq_true, decide_eq_true_eq,
    Char.le_def] at h
  rcases h with (⟨h1, h2⟩ | ⟨h1, h2⟩) | ⟨h1, h2⟩
  · exact Or.inl ⟨h1, h2⟩
  · exact Or.inr (Or.inl ⟨h1, h2⟩)
  · exact Or.inr (Or.inr ⟨h1, h2⟩)

theorem isDigit_of_range {c : Char} (h1 : 48 ≤ c.toNat) (h2 : c.toNat ≤ 57) :
    c.isDigit = true := by
  rw [Char.isDigit, Bool.and_eq_true]
  exact ⟨decide_eq_true h1, decide_eq_true h2⟩

theorem isLower_of_range {c : Char} (h1 : 97 ≤ c.toNat) (h2 : c.toNat ≤ 122) :
    c.isLower = true := by
  rw [Char.isLower, Bool.and_eq_true]
  exact ⟨decide_eq_true h1, decide_eq_true h2⟩

theorem isUpper_of_range {c : Char} (h1 : 65 ≤ c.toNat) (h2 : c.toNat ≤ 90) :
    c.isUpper = true := by
  rw [Char.isUpper, Bool.and_eq_true]
  exact ⟨decide_eq_true h1, decide_eq_true h2⟩

theorem validChar_head (c : Char) (h : validChar c = true)
    (hd : c.isDigit = false) : (c.isAlpha || c = '_') = true := by
  rcases Bool.or_eq_true _ _ |>.mp h with halnum | hund
  · rw [Bool.or_eq_true]
    left
    rw [Char.isAlpha, Bool.or_eq_true]
    rcases alnum_toNat halnum with ⟨h1, h2⟩ | ⟨h1, h2⟩ | ⟨h1, h2⟩
    · exact Or.inr (isLower_of_range h1 h2)
    · exact Or.inl (isUpper_of_range h1 h2)
    · rw [isDigit_of_range h1 h2] at hd
      cases hd
  · rw [Bool.or_eq_true]
    right
    exact hund

theorem upChar_alnum (c : Char) (h : isAsciiAlnum c = true) :
    isAsciiAlnum (upChar c) = true := by
  unfold upChar
  split
  case isTrue hc =>
    simp only [Bool.and_eq_true, decide_eq_true_eq, Char.le_def] at hc
    have h1 : (97 : Nat) ≤ c.toNat := hc.1
    have h2 : c.toNat ≤ (122 : Nat) := hc.2
    have hb : 65 ≤ c.toNat - 32 ∧ c.toNat - 32 ≤ 90 := by omega
    set k := c.toNat - 32 with hk
    obtain ⟨hb1, hb2⟩ := hb
    interval_cases k <;> decide
  case isFalse => exact h

theorem upChar_valid (c : Char) (h : validChar c = true) :
    validChar (upChar c) = true := by
  rcases Bool.or_eq_true _ _ |>.mp h with halnum | hund
  · unfold validChar
    rw [Bool.or_eq_true]
    exact Or.inl (upChar_alnum c halnum)
  · have hc : c = '_' := by simpa using hund
    subst hc
    decide

theorem natDigitsAux_alnum (fuel : Nat) :
    ∀ (n : Nat), ∀ c ∈ natDigitsAux fuel n, isAsciiAlnum c = true := by
  induction fuel with
  | zero =>
    intro n c hc
    exact absurd hc (List.not_mem_nil c)
  | succ fuel ih =>
    intro n c hc
    unfold natDigitsAux at hc
    split at hc
    · next hn =>
      rw [List.mem_singleton] at hc
      subst hc
      interval_cases n <;> decide
    · rcases List.mem_append.mp hc with h | h
      · exact ih _ c h
      · rw [List.mem_singleton] at h
        subst h
        have hlt : n % 10 < 10 := Nat.mod_lt _ (by omega)
        set k := n % 10 with hk
        interval_cases k <;> decide

theorem natDigits_alnum (n : Nat) :
    ∀ c ∈ natDigits n, isAsciiAlnum c = true :=
  natDigitsAux_alnum (n + 1) n

theorem mapNonAlnum_valid (l : Chars) :
    ∀ x ∈ mapNonAlnum l, validChar x = true := by
  intro x hx
  rcases List.mem_map.mp hx with ⟨z, hz, rfl⟩
  unfold validChar
  rw [Bool.or_eq_true]
  split
  · next h => exact Or.inl h
  · exact Or.inr (by simp)

theorem collapseUnderscores_cons (c : Char) (rest : Chars) :
    collapseUnderscores (c :: rest) =
      match collapseUnderscores rest with
      | [] => [c]
      | d :: rest' =>
        if c = '_' && d = '_' then d :: rest' else c :: d :: rest' := rfl

theorem collapse_subset {l : Chars} {x : Char}
    (hx : x ∈ collapseUnderscores l) : x ∈ l := by
  induction l with
  | nil => exact absurd hx (List.not_mem_nil x)
  | cons c rest ih =>
    cases hcr : collapseUnderscores rest with
    | nil =>
      have heq : collapseUnderscores (c :: rest) = [c] := by
        rw [collapseUnderscores_cons, hcr]
      rw [heq] at hx
      rw [List.mem_singleton] at hx
      subst hx
      exact List.mem_cons_self x rest
    | cons d rest' =>
      have heq : collapseUnderscores (c :: rest) =
          if c = '_' && d = '_' then d :: rest' else c :: d :: rest' := by
        rw [collapseUnderscores_cons, hcr]
      rw [heq] at hx
      have hsub : x ∈ d :: rest' → x ∈ c :: rest := by
        intro hmem
        refine List.mem_cons_of_mem c (ih ?_)
        rw [hcr]
        exact hmem
      split at hx
      · exact hsub hx
      · rcases List.mem_cons.mp hx with rfl | hx2
        · exact List.mem_cons_self x rest
        · exact hsub hx2

theorem strip_subset {l : Chars} {x : Char}
    (hx : x ∈ stripUnderscores l) : x ∈ l := by
  unfold stripUnderscores at hx
  rw [List.mem_reverse] at hx
  have hx' := (List.dropWhile_sublist _).mem hx
  rw [List.mem_reverse] at hx'
  exact (List.dropWhile_sublist _).mem hx'

theorem cleanup_valid (l : Chars) : ∀ x ∈ cleanup l, validChar x = true := by
  intro x hx
  unfold cleanup at hx
  rcases List.mem_map.mp hx with ⟨y, hy, rfl⟩
  exact upChar_valid y (mapNonAlnum_valid l y (collapse_subset (strip_subset hy)))

/-- The shape a built name keeps through suffixing and truncation: a
leading letter-or-underscore and only identifier characters. -/
def goodIdent (l : Chars) : Prop :=
  ∃ c cs, l = c :: cs ∧ (c.isAlpha || c = '_') = true ∧
    ∀ x ∈ l, validChar x = true

theorem validIdent_of_good {l : Chars} (h : goodIdent l) :
    validIdent l = true := by
  rcases h with ⟨c, cs, rfl, hh, hall⟩
  unfold validIdent
  rw [Bool.and_eq_true]
  exact ⟨hh, List.all_eq_true.mpr
    (fun x hx => hall x (List.mem_cons_of_mem c hx))⟩

theorem good_append {l : Chars} (suffix : Chars) (h : goodIdent l)
    (hs : ∀ x ∈ suffix, validChar x = true) : goodIdent (l ++ suffix) := by
  rcases h with ⟨c, cs, rfl, hh, hall⟩
  refine ⟨c, cs ++ suffix, by rw [List.cons_append], hh, ?_⟩
  intro x hx
  rcases List.mem_append.mp hx with hx' | hx'
  · exact hall x hx'
  · exact hs x hx'

theorem good_take {l : Chars} (k : Nat) (hk : 0 < k) (h : goodIdent l) :
    goodIdent (l.take k) := by
  rcases h with ⟨c, cs, rfl, hh, hall⟩
  cases k with
  | zero => omega
  | succ k =>
    refine ⟨c, cs.take k, by rw [List.take_succ_cons], hh, ?_⟩
    intro x hx
    exact hall x (List.take_subset _ _ hx)

theorem clean1_good (w : Chars) (hw : ∀ x ∈ w, validChar x = true) :
    goodIdent (clean1Step w) := by
  unfold clean1Step
  cases w with
  | nil => exact ⟨'S', "TR_".toList, rfl, by decide, by decide⟩
  | cons c cs =>
    show goodIdent (if c.isDigit then "STR_".toList ++ (c :: cs) else c :: cs)
    by_cases hd : c.isDigit = true
    · rw [if_pos hd]
      refine ⟨'S', "TR_".toList ++ (c :: cs), rfl, by decide, ?_⟩
      intro x hx
      rcases List.mem_append.mp hx with hx' | hx'
      · have hall : ∀ y ∈ "STR_".toList, validChar y = true := by decide
        exact hall x hx'
      · exact hw x hx'
    · have hd' : c.isDigit = false := by
        cases hdd : c.isDigit
        · rfl
        · exact absurd hdd hd
      rw [if_neg hd]
      exact ⟨c, cs, rfl, validChar_head c (hw c (List.mem_cons_self c cs)) hd',
        hw⟩

theorem hintSuffix_good (hint : Option String) (l : Chars)
    (h : goodIdent l) : goodIdent (hintSuffix hint l) := by
  unfold hintSuffix
  split
  any_goals split
  all_goals first
    | exact h
    | exact good_append _ h (by decide)

/-- The index-suffixed fallback names are well-formed. -/
theorem fallback_good (prefix9 : Chars) (idx : Nat)
    (hp : ∀ x ∈ prefix9, validChar x = true) :
    ∀ x ∈ prefix9 ++ natDigits idx, validChar x = true := by
  intro x hx
  rcases List.mem_append.mp hx with hx' | hx'
  · exact hp x hx'
  · unfold validChar
    rw [Bool.or_eq_true]
    exact Or.inl (natDigits_alnum idx x hx')

theorem name_from_str_post_valid (w : Chars) (idx : Nat)
    (hint : Option String) (hw : ∀ x ∈ w, validChar x = true) :
    validIdent (name_from_str_post w idx hint) = true ∧
    ((name_from_str_post w idx hint).length ≤ 50 ∨
      name_from_str_post w idx hint = "STR_CONST_".toList ++ natDigits idx) := by
  have hfallback : goodIdent ("STR_CONST_".toList ++ natDigits idx) :=
    ⟨'S', "TR_CONST_".toList ++ natDigits idx, rfl, by decide,
      fallback_good _ idx (by decide)⟩
  unfold name_from_str_post
  dsimp only
  set m1 := clean1Step w with hm1
  have hg1 : goodIdent m1 := clean1_good w hw
  set m2 := hintSuffix hint m1 with hm2
  have hg2 : goodIdent m2 := hintSuffix_good hint m1 hg1
  set m3 := (if m2.length > 50 then m2.take 46 ++ "_ETC".toList else m2)
    with hm3
  have hg3 : goodIdent m3 ∧ m3.length ≤ 50 := by
    rw [hm3]
    split
    · next hlong =>
      refine ⟨good_append _ (good_take 46 (by omega) hg2) (by decide), ?_⟩
      rw [List.length_append, List.length_take]
      have hmin : min 46 m2.length = 46 := Nat.min_eq_left (by omega)
      rw [hmin]
      decide
    · next hshort => exact ⟨hg2, by omega⟩
  constructor
  · split
    · exact validIdent_of_good hfallback
    · exact validIdent_of_good hg3.1
  · split
    · exact Or.inr rfl
    · exact Or.inl hg3.2

theorem name_from_str_valid_cap (s : Chars) (idx : Nat)
    (hint : Option String) :
    validIdent (name_from_str s idx hint) = true ∧
    ((name_from_str s idx hint).length ≤ 50 ∨
      name_from_str s idx hint = "STR_CONST_".toList ++ natDigits idx) := by
  unfold name_from_str
  split
  · exact ⟨by decide, Or.inl (by decide)⟩
  · exact name_from_str_post_valid _ idx hint (cleanup_valid _)

theorem intStr_chars (v : Int) :
    ∀ c ∈ intStr v, c = '-' ∨ isAsciiAlnum c = true := by
  intro c hc
  unfold intStr at hc
  split at hc
  · rcases List.mem_cons.mp hc with rfl | hc'
    · exact Or.inl rfl
    · exact Or.inr (natDigits_alnum _ c hc')
  · exact Or.inr (natDigits_alnum _ c hc)

theorem name_from_int_valid (v : Int) :
    validIdent (name_from_int v) = true := by
  apply validIdent_of_good
  refine ⟨'I', "NT_".toList ++
    (intStr v).flatMap (fun c => if c = '-' then "NEG_".toList else [c]),
    rfl, by decide, ?_⟩
  intro x hx
  rcases List.mem_append.mp hx with hx' | hx'
  · have hall : ∀ y ∈ "INT_".toList, validChar y = true := by decide
    exact hall x hx'
  · rcases List.mem_flatMap.mp hx' with ⟨a, ha, hfa⟩
    by_cases hda : a = '-'
    · rw [if_pos hda] at hfa
      have hall : ∀ y ∈ "NEG_".toList, validChar y = true := by decide
      exact hall x hfa
    · rw [if_neg hda] at hfa
      rw [List.mem_singleton] at hfa
      rw [hfa]
      rcases intStr_chars v a ha with hdash | halnum
      · exact absurd hdash hda
      · unfold validChar
        rw [Bool.or_eq_true]
        exact Or.inl halnum

theorem mem_pyReplaceChar {x : Char} {l : Chars} {c : Char} {r : Chars}
    (hx : x ∈ pyReplaceChar l c r) : x ∈ r ∨ (x ∈ l ∧ x ≠ c) := by
  unfold pyReplaceChar at hx
  rcases List.mem_flatMap.mp hx with ⟨a, ha, hfa⟩
  by_cases hac : a = c
  · rw [if_pos hac] at hfa
    exact Or.inl hfa
  · rw [if_neg hac] at hfa
    rw [List.mem_singleton] at hfa
    subst hfa
    exact Or.inr ⟨ha, hac⟩

theorem floatReplaced_valid (s : Chars)
    (hs : ∀ c ∈ s, isAsciiAlnum c = true ∨ c = '.' ∨ c = '-' ∨ c = '+') :
    ∀ x ∈ floatReplaced s, validChar x = true := by
  intro x hx
  unfold floatReplaced at hx
  rcases mem_pyReplaceChar hx with h1 | ⟨h1, hplus⟩
  · rw [List.mem_singleton] at h1
    subst h1
    decide
  · rcases mem_pyReplaceChar h1 with h2 | ⟨h2, hdash⟩
    · have hall : ∀ y ∈ "NEG_".toList, validChar y = true := by decide
      exact hall x h2
    · rcases mem_pyReplaceChar h2 with h3 | ⟨h3, hdot⟩
      · rw [List.mem_singleton] at h3
        subst h3
        decide
      · rcases hs x h3 with halnum | hdot2 | hdash2 | hplus2
        · unfold validChar
          rw [Bool.or_eq_true]
          exact Or.inl halnum
        · exact absurd hdot2 hdot
        · exact absurd hdash2 hdash
        · exact absurd hplus2 hplus

theorem name_from_float_valid (s : Chars)
    (hs : ∀ c ∈ s, isAsciiAlnum c = true ∨ c = '.' ∨ c = '-' ∨ c = '+') :
    validIdent (name_from_float s) = true := by
  apply validIdent_of_good
  refine ⟨'F', "LOAT_".toList ++ floatReplaced s, rfl, by decide, ?_⟩
  intro x hx
  rcases List.mem_append.mp hx with hx' | hx'
  · have hall : ∀ y ∈ "FLOAT_".toList, validChar y = true := by decide
    exact hall x hx'
  · exact floatReplaced_valid s hs x hx'

theorem name_from_bytes_valid (digest8 : List Nat → Chars) (b : List Nat)
    (hd : ∀ c ∈ digest8 b, isAsciiAlnum c = true) :
    validIdent (name_from_bytes digest8 b) = true := by
  have hhash : validIdent ("BYTES_".toList ++ digest8 b) = true := by
    apply validIdent_of_good
    refine ⟨'B', "YTES_".toList ++ digest8 b, rfl, by decide, ?_⟩
    intro x hx
    rcases List.mem_append.mp hx with hx' | hx'
    · have hall : ∀ y ∈ "BYTES_".toList, validChar y = true := by decide
      exact hall x hx'
    · unfold validChar
      rw [Bool.or_eq_true]
      exact Or.inl (hd x hx')
  unfold name_from_bytes
  split
  · dsimp only
    split
    · exact hhash
    · apply validIdent_of_good
      apply good_take 50 (by omega)
      refine ⟨'B', "YTES_".toList ++ cleanup (b.map (fun n => Char.ofNat n)),
        rfl, by decide, ?_⟩
      intro x hx
      rcases List.mem_append.mp hx with hx' | hx'
      · have hall : ∀ y ∈ "BYTES_".toList, validChar y = true := by decide
        exact hall x hx'
      · exact cleanup_valid _ x hx'
  · exact hhash

theorem name_from_bytes_cap (digest8 : List Nat → Chars) (b : List Nat)
    (hlen : (digest8 b).length = 8) :
    (name_from_bytes digest8 b).length ≤ 50 := by
  have hhash : ("BYTES_".toList ++ digest8 b).length ≤ 50 := by
    rw [List.length_append, hlen]
    decide
  unfold name_from_bytes
  split
  · dsimp only
    split
    · exact hhash
    · exact List.length_take_le ..
  · exact hhash

/-- C9 counterexample: the heuristic's output is neither disjoint from the
reserved fallback family, nor capped with a truncation marker for every
input.  The non-degenerate value "str empty" derives to exactly
`STR_EMPTY`, the fallback name for the empty string; an integer value
produces an uncapped name (65 characters for 10^60); and a printable
byte-sequence of sixty `A` bytes is sliced to exactly 50 characters with no
`_ETC` truncation marker. -/
theorem c9_counterexample :
    name_from_str "str empty".toList 7 none = "STR_EMPTY".toList ∧
    name_from_str [] 7 none = "STR_EMPTY".toList ∧
    "str empty".toList ≠ ([] : Chars) ∧
    50 < (generate_name hashDigest8 (Value.int (10 ^ 60)) "derived" 1
      none).length ∧
    name_from_bytes hashDigest8 (List.replicate 60 65) =
      "BYTES_".toList ++ List.replicate 44 'A' ∧
    (name_from_bytes hashDigest8 (List.replicate 60 65)).length = 50 ∧
    "_ETC".toList.isSuffixOf
      (name_from_bytes hashDigest8 (List.replicate 60 65)) = false :=
  ⟨by decide, by decide, by decide, by decide, by decide, by decide, by decide⟩

/-- C9 (amended): the naming heuristic always returns a syntactically valid
identifier (for byte-sequences, under the assumption that the external
md5 digest yields hexadecimal characters; for floats, that the rendering
consists of alphanumerics, dot, minus and plus).  Names derived from string
values are capped at 50 characters via truncation to 46 plus the `_ETC`
marker, except for the index-suffixed `STR_CONST_<idx>` fallback; names for
byte-sequences are capped at 50 by a bare slice with no truncation marker;
integer-derived, float-derived and generic names are not truncated at all,
and a non-degenerate string may map onto the reserved fallback family (see
the counterexample). -/
theorem c9_generate_name (digest8 : List Nat → Chars) (val : Value)
    (strategy : String) (idx : Nat) (hint : Option String)
    (hdigest : ∀ b, (∀ c ∈ digest8 b, isAsciiAlnum c = true) ∧
      (digest8 b).length = 8)
    (hfloat : ∀ s, val = Value.float s →
      ∀ c ∈ s, isAsciiAlnum c = true ∨ c = '.' ∨ c = '-' ∨ c = '+') :
    validIdent (generate_name digest8 val strategy idx hint) = true ∧
    (∀ s, val = Value.str s → strategy ≠ "generic" →
      ((generate_name digest8 val strategy idx hint).length ≤ 50 ∨
        generate_name digest8 val strategy idx hint =
          "STR_CONST_".toList ++ natDigits idx)) ∧
    (∀ b, val = Value.bytes b → strategy ≠ "generic" →
      (generate_name digest8 val strategy idx hint).length ≤ 50) := by
  unfold generate_name
  split
  · next hgen =>
    refine ⟨?_, ?_, ?_⟩
    · apply validIdent_of_good
      exact ⟨'C', "ONST_".toList ++ natDigits idx, rfl, by decide,
        fallback_good _ idx (by decide)⟩
    · intro s hval hstrat
      exact absurd hgen hstrat
    · intro b hval hstrat
      exact absurd hgen hstrat
  · cases val with
    | str s =>
      refine ⟨(name_from_str_valid_cap s idx hint).1, ?_, ?_⟩
      · intro s' hs' _
        cases hs'
        exact (name_from_str_valid_cap s idx hint).2
      · intro b hb _
        cases hb
    | int n =>
      refine ⟨name_from_int_valid n, ?_, ?_⟩
      · intro s hs _
        cases hs
      · intro b hb _
        cases hb
    | float s =>
      refine ⟨name_from_float_valid s (hfloat s rfl), ?_, ?_⟩
      · intro s' hs' _
        cases hs'
      · intro b hb _
        cases hb
    | bytes b =>
      refine ⟨name_from_bytes_valid digest8 b (hdigest b).1, ?_, ?_⟩
      · intro s hs _
        cases hs
      · intro b' hb' _
        cases hb'
        exact name_from_bytes_cap digest8 b (hdigest b).2

theorem hashDigest8_hex (b : List Nat) :
    (∀ c ∈ hashDigest8 b, isAsciiAlnum c = true) ∧
      (hashDigest8 b).length = 8 := by
  have h1 : ∀ c ∈ ("0123ABCD".toList : Chars), isAsciiAlnum c = true := by
    decide
  exact ⟨h1, rfl⟩

/-- Witness for the amended C9 theorem: with the fixed digest stand-in, the
derived names for the string "foo bar" and for the byte-sequence of sixty
`A` bytes are valid identifiers, the former under the 50-character cap or
the fallback and the latter capped at 50. -/
theorem c9_generate_name_witness :
    (validIdent (generate_name hashDigest8 (Value.str "foo bar".toList)
      "derived" 1 none) = true ∧
     ((generate_name hashDigest8 (Value.str "foo bar".toList) "derived" 1
        none).length ≤ 50 ∨
      generate_name hashDigest8 (Value.str "foo bar".toList) "derived" 1
        none = "STR_CONST_".toList ++ natDigits 1)) ∧
    (validIdent (generate_name hashDigest8 (Value.bytes (List.replicate 60 65))
      "derived" 1 none) = true ∧
     (generate_name hashDigest8 (Value.bytes (List.replicate 60 65))
        "derived" 1 none).length ≤ 50) :=
  ⟨⟨(c9_generate_name hashDigest8 (Value.str "foo bar".toList) "derived" 1
      none hashDigest8_hex (fun s h => nomatch h)).1,
    (c9_generate_name hashDigest8 (Value.str "foo bar".toList) "derived" 1
      none hashDigest8_hex (fun s h => nomatch h)).2.1
      "foo bar".toList rfl (by decide)⟩,
   ⟨(c9_generate_name hashDigest8 (Value.bytes (List.replicate 60 65))
      "derived" 1 none hashDigest8_hex (fun s h => nomatch h)).1,
    (c9_generate_name hashDigest8 (Value.bytes (List.replicate 60 65))
      "derived" 1 none hashDigest8_hex (fun s h => nomatch h)).2.2
      (List.replicate 60 65) rfl (by decide)⟩⟩

end Constantipy
